import Mathlib

/-!
# Group reconciliation (`goldapps`): diff engine and action executor

A shallow embedding of `group_action.go`:

* `GroupActionsRequired` — the diff of an `old` and a `new` group list into
  additions, updates and deletions;
* `GroupActions.Commit` — the executor that applies an action set against an
  update service, collecting the errors of the calls that failed.

Go slices are lists, a Go `error` value is an `Option` (`none` is `nil`), and
the update service, whose calls have effects, is a record of state-passing
functions over an arbitrary state type.  Console output (`fmt.Println`,
`printProgress`) has no influence on any value computed here and is left out.
-/

namespace Goldapps

/-! ## Data model -/

/-- Modelled from the spec: the `Group` record type is declared in a file that is
not among the sources. `group_action.go` reads only its `Email` field (the
identity key); all remaining attributes (name, members, flags, …) are carried
as one value `attrs` of an arbitrary type. -/
structure Group (α : Type) where
  Email : String
  attrs : α
deriving DecidableEq

/-- How a group looks now and how it should look after an update. -/
structure GroupUpdate (α : Type) where
  Before : Group α
  After : Group α
deriving DecidableEq

/-- Set of actions to be performed on a set of groups. -/
structure GroupActions (α : Type) where
  Updates : List (GroupUpdate α)
  Additions : List (Group α)
  Deletions : List (Group α)
deriving DecidableEq

/-- Number of actions in the set. -/
def GroupActions.Amount {α : Type} (actions : GroupActions α) : Nat :=
  actions.Additions.length + actions.Deletions.length + actions.Updates.length

/-- A failed update together with the error of the call (`none` is Go's `nil`). -/
structure GroupUpdateError (α ε : Type) where
  Action : GroupUpdate α
  Error : Option ε
deriving DecidableEq

/-- A failed addition or deletion together with the error of the call. -/
structure GroupAddOrDelError (α ε : Type) where
  Action : Group α
  Error : Option ε
deriving DecidableEq

/-- Set of actions that could not be performed, with accompanying errors. -/
structure GroupActionErrors (α ε : Type) where
  Updates : List (GroupUpdateError α ε)
  Additions : List (GroupAddOrDelError α ε)
  Deletions : List (GroupAddOrDelError α ε)
deriving DecidableEq

/-- Number of recorded errors. -/
def GroupActionErrors.Amount {α ε : Type} (actions : GroupActionErrors α ε) : Nat :=
  actions.Additions.length + actions.Deletions.length + actions.Updates.length

/-! ## The diff engine -/

/-- Inner loop of the first pass of `GroupActionsRequired`: scan `old` for a group
with the Email of `newGroup`. At the first hit the loop records an update when
`newGroup.equals(oldGroup)` is false and breaks. Returns the flag `exists` and the
action set. `equals` is the method `Group.equals`, defined outside the sources. -/
def scanOld {α : Type} (equals : Group α → Group α → Bool) (newGroup : Group α) :
    List (Group α) → GroupActions α → Bool × GroupActions α
  | [], requiredActions => (false, requiredActions)
  | oldGroup :: rest, requiredActions =>
    if newGroup.Email = oldGroup.Email then
      (true,
        if !equals newGroup oldGroup then
          { requiredActions with
            Updates := requiredActions.Updates ++ [{ Before := oldGroup, After := newGroup }] }
        else requiredActions)
    else scanOld equals newGroup rest requiredActions

/-- First pass of `GroupActionsRequired`: the loop over `new`. -/
def additionsAndUpdates {α : Type} (equals : Group α → Group α → Bool) (old : List (Group α)) :
    List (Group α) → GroupActions α → GroupActions α
  | [], requiredActions => requiredActions
  | newGroup :: rest, requiredActions =>
    let scanned := scanOld equals newGroup old requiredActions
    additionsAndUpdates equals old rest
      (if !scanned.1 then
        { scanned.2 with Additions := scanned.2.Additions ++ [newGroup] }
      else scanned.2)

/-- Inner loop of the second pass: the flag `removed` for `oldGroup`. -/
def scanNew {α : Type} (oldGroup : Group α) : List (Group α) → Bool
  | [] => true
  | newGroup :: rest =>
    if oldGroup.Email = newGroup.Email then false else scanNew oldGroup rest

/-- Second pass of `GroupActionsRequired`: the loop over `old`. -/
def deletionsPass {α : Type} (new : List (Group α)) :
    List (Group α) → GroupActions α → GroupActions α
  | [], requiredActions => requiredActions
  | oldGroup :: rest, requiredActions =>
    deletionsPass new rest
      (if scanNew oldGroup new then
        { requiredActions with Deletions := requiredActions.Deletions ++ [oldGroup] }
      else requiredActions)

/-- Determines the actions required to make the `old` group list look like the
`new` group list. -/
def GroupActionsRequired {α : Type} (equals : Group α → Group α → Bool)
    (old new : List (Group α)) : GroupActions α :=
  deletionsPass new old
    (additionsAndUpdates equals old new { Updates := [], Additions := [], Deletions := [] })

/-! ## The action executor -/

/-- The part of the `UpdateService` interface that `GroupActions.Commit` calls.
Each method returns the error of the call (`none` for `nil`) and the state of
the service after the call. -/
structure UpdateService (σ α ε : Type) where
  AddGroup : Group α → σ → Option ε × σ
  UpdateGroup : GroupUpdate α → σ → Option ε × σ
  DeleteGroup : Group α → σ → Option ε × σ

/-- The deletion loop of `Commit`. -/
def commitDeletions {σ α ε : Type} (service : UpdateService σ α ε) :
    List (Group α) → GroupActionErrors α ε → σ → GroupActionErrors α ε × σ
  | [], errors, s => (errors, s)
  | group :: rest, errors, s =>
    let r := service.DeleteGroup group s
    commitDeletions service rest
      (if r.1.isSome then
        { errors with Deletions := errors.Deletions ++ [{ Action := group, Error := r.1 }] }
      else errors) r.2

/-- The update loop of `Commit`. -/
def commitUpdates {σ α ε : Type} (service : UpdateService σ α ε) :
    List (GroupUpdate α) → GroupActionErrors α ε → σ → GroupActionErrors α ε × σ
  | [], errors, s => (errors, s)
  | update :: rest, errors, s =>
    let r := service.UpdateGroup update s
    commitUpdates service rest
      (if r.1.isSome then
        { errors with Updates := errors.Updates ++ [{ Action := update, Error := r.1 }] }
      else errors) r.2

/-- The addition loop of `Commit`. -/
def commitAdditions {σ α ε : Type} (service : UpdateService σ α ε) :
    List (Group α) → GroupActionErrors α ε → σ → GroupActionErrors α ε × σ
  | [], errors, s => (errors, s)
  | group :: rest, errors, s =>
    let r := service.AddGroup group s
    commitAdditions service rest
      (if r.1.isSome then
        { errors with Additions := errors.Additions ++ [{ Action := group, Error := r.1 }] }
      else errors) r.2

/-- Commits a set of actions to a service, started in state `s`. Returns the
errors of the actions that could not be performed and the final service state. -/
def GroupActions.Commit {σ α ε : Type} (actions : GroupActions α)
    (service : UpdateService σ α ε) (s : σ) : GroupActionErrors α ε × σ :=
  let errors : GroupActionErrors α ε := { Updates := [], Additions := [], Deletions := [] }
  let afterDeletions :=
    if actions.Deletions.length > 0 then commitDeletions service actions.Deletions errors s
    else (errors, s)
  let afterUpdates :=
    if actions.Updates.length > 0 then
      commitUpdates service actions.Updates afterDeletions.1 afterDeletions.2
    else afterDeletions
  if actions.Additions.length > 0 then
    commitAdditions service actions.Additions afterUpdates.1 afterUpdates.2
  else afterUpdates

/-! ## Observing the calls of a commit -/

/-- A call of the update service. -/
inductive ServiceCall (α : Type) where
  | DeleteGroup (group : Group α)
  | UpdateGroup (update : GroupUpdate α)
  | AddGroup (group : Group α)
deriving DecidableEq

/-- The service `service` with a log: every call is forwarded to `service`
unchanged, and the call and the error it returned are appended to the log. -/
def recording {σ α ε : Type} (service : UpdateService σ α ε) :
    UpdateService (σ × List (ServiceCall α × Option ε)) α ε where
  AddGroup := fun group s =>
    let r := service.AddGroup group s.1
    (r.1, (r.2, s.2 ++ [(ServiceCall.AddGroup group, r.1)]))
  UpdateGroup := fun update s =>
    let r := service.UpdateGroup update s.1
    (r.1, (r.2, s.2 ++ [(ServiceCall.UpdateGroup update, r.1)]))
  DeleteGroup := fun group s =>
    let r := service.DeleteGroup group s.1
    (r.1, (r.2, s.2 ++ [(ServiceCall.DeleteGroup group, r.1)]))

/-- The calls made by `actions.Commit(service)` from state `s`, in order, each
with the error it returned. -/
def commitLog {σ α ε : Type} (actions : GroupActions α) (service : UpdateService σ α ε)
    (s : σ) : List (ServiceCall α × Option ε) :=
  (actions.Commit (recording service) (s, [])).2.2

/-! ## Closed forms of the loops -/

/-- Whether some group of `l` has the Email `k`. -/
def hasKey {α : Type} (l : List (Group α)) (k : String) : Bool :=
  l.any (fun g => decide (k = g.Email))

/-- The first group of `l` that has the Email `k`. -/
def firstMatch {α : Type} (l : List (Group α)) (k : String) : Option (Group α) :=
  l.find? (fun g => decide (k = g.Email))

/-- The update, if any, that the first pass emits for `newGroup`. -/
def updateFor {α : Type} (equals : Group α → Group α → Bool) (old : List (Group α))
    (newGroup : Group α) : Option (GroupUpdate α) :=
  match firstMatch old newGroup.Email with
  | some oldGroup =>
    if equals newGroup oldGroup then none else some { Before := oldGroup, After := newGroup }
  | none => none

/-- The entry of `errors.Deletions` that a logged call gives rise to: the call is
a `DeleteGroup` and it returned an error. -/
def failedDeletion {α ε : Type} : ServiceCall α × Option ε → Option (GroupAddOrDelError α ε)
  | (ServiceCall.DeleteGroup group, some e) => some { Action := group, Error := some e }
  | _ => none

/-- The entry of `errors.Updates` that a logged call gives rise to. -/
def failedUpdate {α ε : Type} : ServiceCall α × Option ε → Option (GroupUpdateError α ε)
  | (ServiceCall.UpdateGroup update, some e) => some { Action := update, Error := some e }
  | _ => none

/-- The entry of `errors.Additions` that a logged call gives rise to. -/
def failedAddition {α ε : Type} : ServiceCall α × Option ε → Option (GroupAddOrDelError α ε)
  | (ServiceCall.AddGroup group, some e) => some { Action := group, Error := some e }
  | _ => none

/-- The calls a commit of `actions` has to make, in order: the deletions, then
the updates, then the additions. -/
def expectedCalls {α : Type} (actions : GroupActions α) : List (ServiceCall α) :=
  actions.Deletions.map ServiceCall.DeleteGroup ++
    actions.Updates.map ServiceCall.UpdateGroup ++
    actions.Additions.map ServiceCall.AddGroup

/-! ## Reference semantics of a successful commit -/

/-- Replace every occurrence of `before` in `l` by `after`. -/
def replaceGroup {α : Type} [DecidableEq α] (before after : Group α)
    (l : List (Group α)) : List (Group α) :=
  l.map (fun g => if g = before then after else g)

/-- Reference result of a fully successful commit of `actions` on the collection
`old`, in the words of the convergence property: remove every group in
`actions.Deletions`, replace each `actions.Updates[i].Before` by
`actions.Updates[i].After`, append every group in `actions.Additions`. -/
def applyActions {α : Type} [DecidableEq α] (old : List (Group α))
    (actions : GroupActions α) : List (Group α) :=
  actions.Updates.foldl (fun l u => replaceGroup u.Before u.After l)
      (old.filter (fun g => decide (g ∉ actions.Deletions)))
    ++ actions.Additions

/-- The group an update chain turns `g` into: each update whose `Before` is the
current group replaces it by its `After`. -/
def followUpdates {α : Type} [DecidableEq α] (updates : List (GroupUpdate α))
    (g : Group α) : Group α :=
  updates.foldl (fun x u => if x = u.Before then u.After else x) g

/-! ## Sample data -/

/-- Lower-casing of a string, letter by letter (`strings.ToLower` on ASCII text). -/
def ToLower (s : String) : String := String.mk (s.data.map Char.toLower)

/-- A semantic equality for the sample groups: same Email and same attributes. -/
def sampleEquals (g h : Group String) : Bool := decide (g = h)

/-- Sample group `a@x` named `A`. -/
def groupA : Group String := { Email := "a@x", attrs := "A" }

/-- Sample group `A@x` named `A2`. -/
def groupA2 : Group String := { Email := "A@x", attrs := "A2" }

/-- Sample group `b@x` named `B`. -/
def groupB : Group String := { Email := "b@x", attrs := "B" }

/-- Sample group `a@x` named `A2`: the key of `groupA` with another name. -/
def groupA' : Group String := { Email := "a@x", attrs := "A2" }

/-- Sample group `c@x` named `C`. -/
def groupC : Group String := { Email := "c@x", attrs := "C" }

/-! ## Rendering of an error set -/

/-- The text `fmt.Sprintf("<kind> of group \"%s\" failed with error %s\n", email, text)`
for the three format strings of `GroupActionErrors.String`, which differ in
their first word `kind` only. -/
def formatFailure (kind email text : String) : String :=
  kind ++ " of group \"" ++ email ++ "\" failed with error " ++ text ++ "\n"

/-- First loop of `GroupActionErrors.String`: one `WriteString` per deletion
error. `errorText` is the method `Error()` of the error values; on a `nil` error
the call `deletion.Error.Error()` panics, which is the result `none`. -/
def writeDeletions {α ε : Type} (errorText : ε → String) :
    List (GroupAddOrDelError α ε) → String → Option String
  | [], builder => some builder
  | deletion :: rest, builder =>
    match deletion.Error with
    | none => none
    | some e =>
      writeDeletions errorText rest
        (builder ++ formatFailure "Deletion" deletion.Action.Email (errorText e))

/-- Second loop of `GroupActionErrors.String`: one `WriteString` per update error. -/
def writeUpdates {α ε : Type} (errorText : ε → String) :
    List (GroupUpdateError α ε) → String → Option String
  | [], builder => some builder
  | update :: rest, builder =>
    match update.Error with
    | none => none
    | some e =>
      writeUpdates errorText rest
        (builder ++ formatFailure "Update" update.Action.After.Email (errorText e))

/-- Third loop of `GroupActionErrors.String`: one `WriteString` per addition error. -/
def writeAdditions {α ε : Type} (errorText : ε → String) :
    List (GroupAddOrDelError α ε) → String → Option String
  | [], builder => some builder
  | addition :: rest, builder =>
    match addition.Error with
    | none => none
    | some e =>
      writeAdditions errorText rest
        (builder ++ formatFailure "Addition" addition.Action.Email (errorText e))

/-- The rendering of an error set: the buffer after the deletion, update and
addition loops, or `none` when a recorded error is `nil` and the call panics. -/
def GroupActionErrors.String {α ε : Type} (errorText : ε → String)
    (actions : GroupActionErrors α ε) : Option String :=
  (writeDeletions errorText actions.Deletions "").bind fun afterDeletions =>
    (writeUpdates errorText actions.Updates afterDeletions).bind fun afterUpdates =>
      writeAdditions errorText actions.Additions afterUpdates

/-- The line written for a deletion or addition error, `none` on a `nil` error. -/
def addOrDelLine {α ε : Type} (errorText : ε → String) (kind : String)
    (failure : GroupAddOrDelError α ε) : Option String :=
  failure.Error.map fun e => formatFailure kind failure.Action.Email (errorText e)

/-- The line written for an update error, `none` on a `nil` error. -/
def updateLine {α ε : Type} (errorText : ε → String)
    (failure : GroupUpdateError α ε) : Option String :=
  failure.Error.map fun e => formatFailure "Update" failure.Action.After.Email (errorText e)

/-- Appending a list of lines to a buffer, one at a time; `none` as soon as a
line is `none`. The common shape of the three loops of `String`. -/
def writeLines : List (Option String) → String → Option String
  | [], builder => some builder
  | none :: _, _ => none
  | some line :: rest, builder => writeLines rest (builder ++ line)

/-- Number of newline characters of a string, which is its number of
newline-terminated lines when it is empty or ends in a newline. -/
def newlines (s : String) : Nat := s.data.count '\n'

/-- Whether `part` occurs in `s` as a contiguous piece. -/
def occursIn (part s : String) : Prop := List.IsInfix part.data s.data

/-- Sample error set: the deletion of `c@x` failed with a two-line error text. -/
def twoLineFailure : GroupActionErrors String String :=
  { Updates := [], Additions := [],
    Deletions := [{ Action := groupC, Error := some "quota\nexceeded" }] }

/-- Sample error set with one failure in each category. -/
def threeFailures : GroupActionErrors String String :=
  { Updates := [{ Action := { Before := groupA, After := groupA' }, Error := some "busy" }],
    Additions := [{ Action := groupB, Error := some "denied" }],
    Deletions := [{ Action := groupC, Error := some "gone" }] }

/-- Sample action set: delete `c@x`. -/
def deleteC : GroupActions String :=
  { Updates := [], Additions := [], Deletions := [groupC] }

/-- Sample service without state whose every call fails with a two-line text. -/
def quotaService : UpdateService Unit String String :=
  { AddGroup := fun _ s => (some "quota\nexceeded", s),
    UpdateGroup := fun _ s => (some "quota\nexceeded", s),
    DeleteGroup := fun _ s => (some "quota\nexceeded", s) }

/-! ## Users -/

/-- A user record. -/
structure User where
  Cid : String
  FirstName : String
  SecondName : String
  Nick : String
  GdprEducation : Bool
deriving DecidableEq

/-- Semantic equality of users. `lower` is `strings.ToLower`. -/
def User.equals (lower : String → String) (user other : User) : Bool :=
  if lower user.Cid ≠ lower other.Cid then false
  else if user.FirstName ≠ other.FirstName then false
  else if user.SecondName ≠ other.SecondName then false
  else if user.Nick ≠ other.Nick then false
  else if user.GdprEducation ≠ other.GdprEducation then false
  else true

/-- Sample user with an upper-case Cid. -/
def userUpper : User :=
  { Cid := "ABC", FirstName := "Ada", SecondName := "Berg", Nick := "ab", GdprEducation := true }

/-- Sample user: `userUpper` with the Cid in lower case. -/
def userLower : User :=
  { Cid := "abc", FirstName := "Ada", SecondName := "Berg", Nick := "ab", GdprEducation := true }

/-- Sample user: `userLower` with another nick. -/
def userNick : User :=
  { Cid := "abc", FirstName := "Ada", SecondName := "Berg", Nick := "ada", GdprEducation := true }

/-! ## Lemmas on the diff engine -/

theorem hasKey_iff {α : Type} (l : List (Group α)) (k : String) :
    hasKey l k = true ↔ ∃ g ∈ l, g.Email = k := by
  simp only [hasKey, List.any_eq_true, decide_eq_true_eq]
  exact ⟨fun ⟨g, hg, h⟩ => ⟨g, hg, h.symm⟩, fun ⟨g, hg, h⟩ => ⟨g, hg, h.symm⟩⟩

theorem hasKey_eq_false_iff {α : Type} (l : List (Group α)) (k : String) :
    hasKey l k = false ↔ ∀ g ∈ l, g.Email ≠ k := by
  rw [← Bool.not_eq_true, hasKey_iff]
  simp

theorem firstMatch_some {α : Type} {l : List (Group α)} {k : String} {g : Group α}
    (h : firstMatch l k = some g) : g ∈ l ∧ g.Email = k := by
  refine ⟨List.mem_of_find?_eq_some h, ?_⟩
  have := List.find?_some h
  exact (of_decide_eq_true this).symm

theorem firstMatch_eq_none {α : Type} (l : List (Group α)) (k : String) :
    firstMatch l k = none ↔ hasKey l k = false := by
  rw [hasKey_eq_false_iff, firstMatch, List.find?_eq_none]
  simp only [decide_eq_true_eq]
  exact ⟨fun h g hg e => h g hg e.symm, fun h g hg e => h g hg e.symm⟩

theorem scanOld_eq {α : Type} (equals : Group α → Group α → Bool) (n : Group α)
    (old : List (Group α)) (acts : GroupActions α) :
    scanOld equals n old acts =
      (hasKey old n.Email,
        { acts with Updates := acts.Updates ++ (updateFor equals old n).toList }) := by
  induction old with
  | nil => simp [scanOld, hasKey, updateFor, firstMatch]
  | cons o rest ih =>
    by_cases h : n.Email = o.Email
    · cases he : equals n o <;>
        simp [scanOld, hasKey, updateFor, firstMatch, h, he]
    · have ih2 := ih
      simp only [updateFor, firstMatch, hasKey] at ih2
      simp [scanOld, hasKey, updateFor, firstMatch, h, ih2]

theorem additionsAndUpdates_eq {α : Type} (equals : Group α → Group α → Bool)
    (old new : List (Group α)) (acts : GroupActions α) :
    additionsAndUpdates equals old new acts =
      { Updates := acts.Updates ++ new.filterMap (updateFor equals old),
        Additions := acts.Additions ++ new.filter (fun n => !hasKey old n.Email),
        Deletions := acts.Deletions } := by
  induction new generalizing acts with
  | nil => simp [additionsAndUpdates]
  | cons n rest ih =>
    rw [additionsAndUpdates, ih, scanOld_eq]
    cases hk : hasKey old n.Email <;> cases hu : updateFor equals old n <;>
      simp [hk, hu, List.filterMap_cons, List.filter_cons]

theorem scanNew_eq {α : Type} (o : Group α) (new : List (Group α)) :
    scanNew o new = !hasKey new o.Email := by
  induction new with
  | nil => simp [scanNew, hasKey]
  | cons n rest ih =>
    by_cases h : o.Email = n.Email
    · simp [scanNew, hasKey, h]
    · simp only [hasKey] at ih
      simp [scanNew, hasKey, h, ih]

theorem deletionsPass_eq {α : Type} (new old : List (Group α)) (acts : GroupActions α) :
    deletionsPass new old acts =
      { acts with Deletions := acts.Deletions ++ old.filter (fun o => !hasKey new o.Email) } := by
  induction old generalizing acts with
  | nil => simp [deletionsPass]
  | cons o rest ih =>
    rw [deletionsPass, ih, scanNew_eq]
    cases hk : hasKey new o.Email <;> simp [hk, List.filter_cons]

theorem GroupActionsRequired_eq {α : Type} (equals : Group α → Group α → Bool)
    (old new : List (Group α)) :
    GroupActionsRequired equals old new =
      { Updates := new.filterMap (updateFor equals old),
        Additions := new.filter (fun n => !hasKey old n.Email),
        Deletions := old.filter (fun o => !hasKey new o.Email) } := by
  simp [GroupActionsRequired, additionsAndUpdates_eq, deletionsPass_eq]

theorem email_injOn {α : Type} {l : List (Group α)} (hl : (l.map Group.Email).Nodup)
    {a b : Group α} (ha : a ∈ l) (hb : b ∈ l) (h : a.Email = b.Email) : a = b :=
  List.inj_on_of_nodup_map hl ha hb h

theorem updateFor_some {α : Type} {equals : Group α → Group α → Bool}
    {old : List (Group α)} {n : Group α} {u : GroupUpdate α}
    (h : updateFor equals old n = some u) :
    firstMatch old n.Email = some u.Before ∧ u.After = n ∧ equals n u.Before = false := by
  unfold updateFor at h
  cases hf : firstMatch old n.Email with
  | none => simp [hf] at h
  | some o =>
    cases he : equals n o with
    | true => simp [hf, he] at h
    | false =>
      simp only [hf, he] at h
      have hu : u = { Before := o, After := n } := by simpa using h.symm
      subst hu
      exact ⟨rfl, rfl, he⟩

theorem filterMap_sublist_of_some_eq {β : Type} (f : β → Option β)
    (hf : ∀ x y, f x = some y → y = x) (l : List β) : List.Sublist (l.filterMap f) l := by
  induction l with
  | nil => simp
  | cons x rest ih =>
    cases hx : f x with
    | none =>
      rw [List.filterMap_cons_none hx]
      exact List.Sublist.cons x ih
    | some y =>
      rw [List.filterMap_cons_some hx, hf x y hx]
      exact List.Sublist.cons₂ x ih

/-! ## The diff engine: the claims -/

/-- C1 (as the code has it): identity is exact equality of `Email`. A group of
`new` and a group of `old` with the same Email string are one identity: the new
group is not added and the old group is not deleted. Emails that differ in
letter case are different identities: on the sample input the `A@x` group is
added next to `b@x`, the `a@x` group is deleted, and nothing is updated. -/
theorem GroupActionsRequired_exact_identity {α : Type} (equals : Group α → Group α → Bool)
    (old new : List (Group α)) (n o : Group α) (hn : n ∈ new) (ho : o ∈ old)
    (hkey : n.Email = o.Email) :
    n ∉ (GroupActionsRequired equals old new).Additions ∧
    o ∉ (GroupActionsRequired equals old new).Deletions ∧
    ∀ eq : Group String → Group String → Bool,
      GroupActionsRequired eq [groupA] [groupA2, groupB] =
        { Updates := [], Additions := [groupA2, groupB], Deletions := [groupA] } := by
  rw [GroupActionsRequired_eq]
  refine ⟨?_, ?_, ?_⟩
  · simp only [List.mem_filter, not_and, Bool.not_eq_true', Bool.not_eq_false]
    intro _
    exact (hasKey_iff old n.Email).2 ⟨o, ho, hkey.symm⟩
  · simp only [List.mem_filter, not_and, Bool.not_eq_true', Bool.not_eq_false]
    intro _
    exact (hasKey_iff new o.Email).2 ⟨n, hn, hkey⟩
  · intro eq
    rw [GroupActionsRequired_eq]
    simp [updateFor, firstMatch, hasKey, groupA, groupA2, groupB]

/-- Witness of C1 (exact identity) on `old = [a@x "A"]`, `new = [a@x "A2", b@x]`. -/
theorem GroupActionsRequired_exact_identity_witness :
    groupA' ∉ (GroupActionsRequired sampleEquals [groupA] [groupA', groupB]).Additions ∧
    groupA ∉ (GroupActionsRequired sampleEquals [groupA] [groupA', groupB]).Deletions ∧
    ∀ eq : Group String → Group String → Bool,
      GroupActionsRequired eq [groupA] [groupA2, groupB] =
        { Updates := [], Additions := [groupA2, groupB], Deletions := [groupA] } :=
  GroupActionsRequired_exact_identity sampleEquals [groupA] [groupA', groupB] groupA' groupA
    (by simp) (by simp) (by decide)

/-- C1 fails as stated: the Emails `a@x` and `A@x` differ only in letter case,
yet for `old = [a@x]`, `new = [A@x, b@x]` the `A@x` group is in `Additions`, the
`a@x` group is in `Deletions`, and `Updates` is empty instead of pairing them. -/
theorem GroupActionsRequired_case_sensitive :
    ToLower groupA.Email = ToLower groupA2.Email ∧
    groupA2 ∈ (GroupActionsRequired sampleEquals [groupA] [groupA2, groupB]).Additions ∧
    groupA ∈ (GroupActionsRequired sampleEquals [groupA] [groupA2, groupB]).Deletions ∧
    (GroupActionsRequired sampleEquals [groupA] [groupA2, groupB]).Updates = [] ∧
    GroupActionsRequired sampleEquals [groupA] [groupA2, groupB] ≠
      { Updates := [{ Before := groupA, After := groupA2 }],
        Additions := [groupB], Deletions := [] } := by
  decide

/-- C3: idempotence of the diff. For a group list `X` with pairwise distinct
Emails (and `Group.equals` reflexive), `GroupActionsRequired(X, X)` has empty
`Additions`, `Updates` and `Deletions`, so `Amount() == 0`. -/
theorem GroupActionsRequired_self {α : Type} (equals : Group α → Group α → Bool)
    (hrefl : ∀ g, equals g g = true) (X : List (Group α))
    (hX : (X.map Group.Email).Nodup) :
    (GroupActionsRequired equals X X).Additions = [] ∧
    (GroupActionsRequired equals X X).Updates = [] ∧
    (GroupActionsRequired equals X X).Deletions = [] ∧
    (GroupActionsRequired equals X X).Amount = 0 := by
  have hkey : ∀ g ∈ X, hasKey X g.Email = true :=
    fun g hg => (hasKey_iff X g.Email).2 ⟨g, hg, rfl⟩
  have hadd : X.filter (fun n => !hasKey X n.Email) = [] := by
    rw [List.filter_eq_nil_iff]
    intro g hg
    simp [hkey g hg]
  have hupd : X.filterMap (updateFor equals X) = [] := by
    rw [List.filterMap_eq_nil_iff]
    intro n hn
    cases hu : updateFor equals X n with
    | none => rfl
    | some u =>
      obtain ⟨hf, _, he⟩ := updateFor_some hu
      obtain ⟨hmem, hk⟩ := firstMatch_some hf
      have : u.Before = n := email_injOn hX hmem hn hk
      rw [this, hrefl n] at he
      cases he
  rw [GroupActionsRequired_eq]
  simp [GroupActions.Amount, hadd, hupd]

/-- Witness of C3 on `X = [a@x, b@x]`. -/
theorem GroupActionsRequired_self_witness :
    (GroupActionsRequired sampleEquals [groupA, groupB] [groupA, groupB]).Additions = [] ∧
    (GroupActionsRequired sampleEquals [groupA, groupB] [groupA, groupB]).Updates = [] ∧
    (GroupActionsRequired sampleEquals [groupA, groupB] [groupA, groupB]).Deletions = [] ∧
    (GroupActionsRequired sampleEquals [groupA, groupB] [groupA, groupB]).Amount = 0 :=
  GroupActionsRequired_self sampleEquals (by simp [sampleEquals]) [groupA, groupB] (by decide)

/-- C4: completeness of additions. A group is in `Additions` iff it is in `new`
and no group of `old` has its Email; such a group occurs in `Additions` as often
as in `new`, and exactly once when the Emails of `new` are pairwise distinct. -/
theorem GroupActionsRequired_additions {α : Type} [DecidableEq α]
    (equals : Group α → Group α → Bool) (old new : List (Group α)) (g : Group α) :
    (g ∈ (GroupActionsRequired equals old new).Additions ↔
      g ∈ new ∧ ∀ o ∈ old, o.Email ≠ g.Email) ∧
    ((∀ o ∈ old, o.Email ≠ g.Email) →
      (GroupActionsRequired equals old new).Additions.count g = new.count g) ∧
    ((new.map Group.Email).Nodup → g ∈ new → (∀ o ∈ old, o.Email ≠ g.Email) →
      (GroupActionsRequired equals old new).Additions.count g = 1) := by
  rw [GroupActionsRequired_eq]
  have hcount : (∀ o ∈ old, o.Email ≠ g.Email) →
      (new.filter (fun n => !hasKey old n.Email)).count g = new.count g := by
    intro h
    apply List.count_filter
    simp [(hasKey_eq_false_iff old g.Email).2 h]
  refine ⟨?_, hcount, ?_⟩
  · simp only [List.mem_filter, Bool.not_eq_true', hasKey_eq_false_iff]
  · intro hnd hg h
    show (new.filter (fun n => !hasKey old n.Email)).count g = 1
    rw [hcount h]
    exact List.count_eq_one_of_mem (List.Nodup.of_map _ hnd) hg

/-- Witness of C4: `b@x` is new in `new = [a@x "A2", b@x]` against `old = [a@x]`. -/
theorem GroupActionsRequired_additions_witness :
    (GroupActionsRequired sampleEquals [groupA] [groupA', groupB]).Additions.count groupB = 1 :=
  (GroupActionsRequired_additions sampleEquals [groupA] [groupA', groupB] groupB).2.2
    (by decide) (by simp) (by decide)

/-- C5: completeness of deletions. A group is in `Deletions` iff it is in `old`
and no group of `new` has its Email; such a group occurs in `Deletions` as often
as in `old`, and exactly once when the Emails of `old` are pairwise distinct. -/
theorem GroupActionsRequired_deletions {α : Type} [DecidableEq α]
    (equals : Group α → Group α → Bool) (old new : List (Group α)) (g : Group α) :
    (g ∈ (GroupActionsRequired equals old new).Deletions ↔
      g ∈ old ∧ ∀ n ∈ new, n.Email ≠ g.Email) ∧
    ((∀ n ∈ new, n.Email ≠ g.Email) →
      (GroupActionsRequired equals old new).Deletions.count g = old.count g) ∧
    ((old.map Group.Email).Nodup → g ∈ old → (∀ n ∈ new, n.Email ≠ g.Email) →
      (GroupActionsRequired equals old new).Deletions.count g = 1) := by
  rw [GroupActionsRequired_eq]
  have hcount : (∀ n ∈ new, n.Email ≠ g.Email) →
      (old.filter (fun o => !hasKey new o.Email)).count g = old.count g := by
    intro h
    apply List.count_filter
    simp [(hasKey_eq_false_iff new g.Email).2 h]
  refine ⟨?_, hcount, ?_⟩
  · simp only [List.mem_filter, Bool.not_eq_true', hasKey_eq_false_iff]
  · intro hnd hg h
    show (old.filter (fun o => !hasKey new o.Email)).count g = 1
    rw [hcount h]
    exact List.count_eq_one_of_mem (List.Nodup.of_map _ hnd) hg

/-- Witness of C5: `c@x` of `old = [a@x, c@x]` is gone in `new = [a@x "A2", b@x]`. -/
theorem GroupActionsRequired_deletions_witness :
    (GroupActionsRequired sampleEquals [groupA, groupC]
      [groupA', groupB]).Deletions.count groupC = 1 :=
  (GroupActionsRequired_deletions sampleEquals [groupA, groupC] [groupA', groupB] groupC).2.2
    (by decide) (by simp) (by decide)

theorem filter_after_filterMap {α : Type} [DecidableEq α]
    (equals : Group α → Group α → Bool) (old : List (Group α)) (n : Group α)
    (l : List (Group α)) :
    (l.filterMap (updateFor equals old)).filter (fun u => decide (u.After = n)) =
      (l.filter (fun m => decide (m = n))).filterMap (updateFor equals old) := by
  induction l with
  | nil => simp
  | cons m rest ih =>
    cases hu : updateFor equals old m with
    | none =>
      by_cases hm : m = n
      · subst hm
        simp [List.filterMap_cons, List.filter_cons, hu, ih]
      · simp [List.filterMap_cons, List.filter_cons, hu, hm, ih]
    | some u =>
      have ha : u.After = m := (updateFor_some hu).2.1
      by_cases hm : m = n
      · subst hm
        simp [List.filterMap_cons, List.filter_cons, hu, ih, ha]
      · simp [List.filterMap_cons, List.filter_cons, hu, hm, ih, ha]

theorem filter_eq_singleton {β : Type} [DecidableEq β] {l : List β} (hl : l.Nodup)
    {a : β} (ha : a ∈ l) : l.filter (fun m => decide (m = a)) = [a] := by
  induction l with
  | nil => simp at ha
  | cons x rest ih =>
    rw [List.nodup_cons] at hl
    by_cases hx : x = a
    · subst hx
      have : rest.filter (fun m => decide (m = x)) = [] := by
        rw [List.filter_eq_nil_iff]
        intro m hm
        simp only [decide_eq_true_eq]
        rintro rfl
        exact hl.1 hm
      simp [List.filter_cons, this]
    · have ha2 : a ∈ rest := by
        rcases List.mem_cons.1 ha with h | h
        · exact absurd h.symm hx
        · exact h
      simp [List.filter_cons, hx, ih hl.2 ha2]

/-- C6: completeness of updates. With pairwise distinct Emails in `old` and in
`new`: a group `n` of `new` whose same-Email group `o` of `old` has
`n.equals(o)` false occurs in `Updates` exactly once, as `{Before: o, After: n}`;
and when `n.equals(o)` is true no update has `After = n`. -/
theorem GroupActionsRequired_updates {α : Type} [DecidableEq α]
    (equals : Group α → Group α → Bool) (old new : List (Group α))
    (hold : (old.map Group.Email).Nodup) (hnew : (new.map Group.Email).Nodup)
    (n o : Group α) (hn : n ∈ new) (ho : o ∈ old) (hkey : o.Email = n.Email) :
    (equals n o = false →
      (GroupActionsRequired equals old new).Updates.filter (fun u => decide (u.After = n)) =
        [{ Before := o, After := n }] ∧
      (GroupActionsRequired equals old new).Updates.count { Before := o, After := n } = 1) ∧
    (equals n o = true →
      (GroupActionsRequired equals old new).Updates.filter (fun u => decide (u.After = n)) =
        []) := by
  have hfirst : firstMatch old n.Email = some o := by
    cases hf : firstMatch old n.Email with
    | none =>
      have := (hasKey_eq_false_iff old n.Email).1 ((firstMatch_eq_none old n.Email).1 hf)
      exact absurd hkey (this o ho)
    | some o' =>
      obtain ⟨hmem, hk⟩ := firstMatch_some hf
      rw [email_injOn hold hmem ho (hk.trans hkey.symm)]
  have hfil : (GroupActionsRequired equals old new).Updates.filter
      (fun u => decide (u.After = n)) = (updateFor equals old n).toList := by
    rw [GroupActionsRequired_eq]
    show (new.filterMap (updateFor equals old)).filter (fun u => decide (u.After = n)) = _
    rw [filter_after_filterMap, filter_eq_singleton (List.Nodup.of_map _ hnew) hn]
    cases hu : updateFor equals old n <;> simp [hu]
  refine ⟨fun he => ?_, fun he => ?_⟩
  · have hu : updateFor equals old n = some { Before := o, After := n } := by
      simp [updateFor, hfirst, he]
    have h1 : (GroupActionsRequired equals old new).Updates.filter
        (fun u => decide (u.After = n)) = [{ Before := o, After := n }] := by
      rw [hfil, hu]; rfl
    refine ⟨h1, ?_⟩
    have hc := List.count_filter (l := (GroupActionsRequired equals old new).Updates)
      (p := fun u => decide (u.After = n)) (a := { Before := o, After := n }) (by simp)
    rw [← hc, h1]
    simp
  · have hu : updateFor equals old n = none := by
      simp [updateFor, hfirst, he]
    rw [hfil, hu]; rfl

/-- Witness of C6: `a@x` is renamed from `A` to `A2`. -/
theorem GroupActionsRequired_updates_witness :
    (sampleEquals groupA' groupA = false →
      (GroupActionsRequired sampleEquals [groupA, groupC] [groupA', groupB]).Updates.filter
          (fun u => decide (u.After = groupA')) = [{ Before := groupA, After := groupA' }] ∧
      (GroupActionsRequired sampleEquals [groupA, groupC] [groupA', groupB]).Updates.count
          { Before := groupA, After := groupA' } = 1) ∧
    (sampleEquals groupA' groupA = true →
      (GroupActionsRequired sampleEquals [groupA, groupC] [groupA', groupB]).Updates.filter
          (fun u => decide (u.After = groupA')) = []) :=
  GroupActionsRequired_updates sampleEquals [groupA, groupC] [groupA', groupB]
    (by decide) (by decide) groupA' groupA (by simp) (by simp) (by decide)

/-- C7: result ordering. `Additions` is a subsequence of `new`, the `After`
fields of `Updates` form a subsequence of `new`, and `Deletions` is a
subsequence of `old`. -/
theorem GroupActionsRequired_order {α : Type} (equals : Group α → Group α → Bool)
    (old new : List (Group α)) :
    List.Sublist (GroupActionsRequired equals old new).Additions new ∧
    List.Sublist ((GroupActionsRequired equals old new).Updates.map GroupUpdate.After) new ∧
    List.Sublist (GroupActionsRequired equals old new).Deletions old := by
  rw [GroupActionsRequired_eq]
  refine ⟨List.filter_sublist _, ?_, List.filter_sublist _⟩
  show List.Sublist ((new.filterMap (updateFor equals old)).map GroupUpdate.After) new
  rw [List.map_filterMap]
  apply filterMap_sublist_of_some_eq
  intro x y hxy
  cases hu : updateFor equals old x with
  | none => simp [hu] at hxy
  | some u =>
    simp only [hu, Option.map_some', Option.some.injEq] at hxy
    rw [← hxy]
    exact (updateFor_some hu).2.1

/-! ## Convergence -/

theorem foldl_replaceGroup {α : Type} [DecidableEq α] (updates : List (GroupUpdate α))
    (l : List (Group α)) :
    updates.foldl (fun l u => replaceGroup u.Before u.After l) l =
      l.map (followUpdates updates) := by
  induction updates generalizing l with
  | nil =>
    have hid : followUpdates ([] : List (GroupUpdate α)) = id := funext fun _ => rfl
    simp [hid]
  | cons u rest ih =>
    rw [List.foldl_cons, ih, replaceGroup, List.map_map]
    apply List.map_congr_left
    intro g _
    simp [followUpdates]

theorem followUpdates_cons {α : Type} [DecidableEq α] (u : GroupUpdate α)
    (rest : List (GroupUpdate α)) (g : Group α) :
    followUpdates (u :: rest) g = followUpdates rest (if g = u.Before then u.After else g) := by
  simp [followUpdates]

theorem followUpdates_email {α : Type} [DecidableEq α] (updates : List (GroupUpdate α))
    (h : ∀ u ∈ updates, u.Before.Email = u.After.Email) (g : Group α) :
    (followUpdates updates g).Email = g.Email := by
  induction updates generalizing g with
  | nil => rfl
  | cons u rest ih =>
    rw [followUpdates_cons, ih (fun v hv => h v (List.mem_cons_of_mem _ hv))]
    by_cases hg : g = u.Before
    · rw [if_pos hg, hg]
      exact (h u (List.mem_cons_self _ _)).symm
    · rw [if_neg hg]

theorem followUpdates_of_not_before {α : Type} [DecidableEq α]
    (updates : List (GroupUpdate α)) (g : Group α) (h : ∀ u ∈ updates, u.Before ≠ g) :
    followUpdates updates g = g := by
  induction updates with
  | nil => rfl
  | cons u rest ih =>
    rw [followUpdates_cons, if_neg (fun e => h u (List.mem_cons_self _ _) e.symm)]
    exact ih (fun v hv => h v (List.mem_cons_of_mem _ hv))

theorem followUpdates_of_update {α : Type} [DecidableEq α]
    (updates : List (GroupUpdate α)) (g n : Group α) (hne : g ≠ n)
    (honly : ∀ u ∈ updates, u.Before = g ∨ u.Before = n → u = { Before := g, After := n })
    (hmem : ({ Before := g, After := n } : GroupUpdate α) ∈ updates) :
    followUpdates updates g = n := by
  induction updates with
  | nil => simp at hmem
  | cons u rest ih =>
    rw [followUpdates_cons]
    by_cases hg : g = u.Before
    · rw [if_pos hg]
      have hu := honly u (List.mem_cons_self _ _) (Or.inl hg.symm)
      rw [hu]
      apply followUpdates_of_not_before
      intro v hv hvn
      have := honly v (List.mem_cons_of_mem _ hv) (Or.inr hvn)
      rw [this] at hvn
      exact hne hvn
    · rw [if_neg hg]
      apply ih (fun v hv => honly v (List.mem_cons_of_mem _ hv))
      rcases List.mem_cons.1 hmem with h | h
      · exact absurd (by rw [← h]) hg
      · exact h

theorem mem_updates {α : Type} {equals : Group α → Group α → Bool}
    {old new : List (Group α)} {u : GroupUpdate α}
    (hu : u ∈ new.filterMap (updateFor equals old)) :
    u.After ∈ new ∧ u.Before ∈ old ∧ u.Before.Email = u.After.Email ∧
      firstMatch old u.After.Email = some u.Before ∧ equals u.After u.Before = false := by
  obtain ⟨m, hm, hum⟩ := List.mem_filterMap.1 hu
  obtain ⟨hf, ha, he⟩ := updateFor_some hum
  subst ha
  obtain ⟨hmem, hk⟩ := firstMatch_some hf
  exact ⟨hm, hmem, hk, hf, he⟩

theorem followUpdates_equals {α : Type} [DecidableEq α]
    (equals : Group α → Group α → Bool) (hrefl : ∀ g, equals g g = true)
    (old new : List (Group α)) (hold : (old.map Group.Email).Nodup)
    (hnew : (new.map Group.Email).Nodup) (n g : Group α) (hn : n ∈ new) (hg : g ∈ old)
    (hkey : g.Email = n.Email) :
    equals n (followUpdates (new.filterMap (updateFor equals old)) g) = true := by
  have honly : ∀ u ∈ new.filterMap (updateFor equals old),
      u.Before = g ∨ u.Before = n → u = { Before := g, After := n } ∧ equals n g = false := by
    intro u hu hb
    obtain ⟨ha, hbm, hk, _, he⟩ := mem_updates hu
    have hbk : u.Before.Email = n.Email := by
      rcases hb with h | h <;> rw [h]
      exact hkey
    have han : u.After = n := email_injOn hnew ha hn (hk.symm.trans hbk)
    have hbg : u.Before = g := email_injOn hold hbm hg (hbk.trans hkey.symm)
    rw [han, hbg] at he
    refine ⟨?_, he⟩
    cases u
    simp_all
  cases he : equals n g with
  | true =>
    rw [followUpdates_of_not_before]
    · exact he
    · intro u hu hb
      have := (honly u hu (Or.inl hb)).2
      rw [he] at this
      cases this
  | false =>
    have hne : g ≠ n := by
      rintro rfl
      rw [hrefl g] at he
      cases he
    have hfirst : firstMatch old n.Email = some g := by
      cases hf : firstMatch old n.Email with
      | none =>
        have := (hasKey_eq_false_iff old n.Email).1 ((firstMatch_eq_none old n.Email).1 hf)
        exact absurd hkey (this g hg)
      | some o' =>
        obtain ⟨hmem, hk⟩ := firstMatch_some hf
        rw [email_injOn hold hmem hg (hk.trans hkey.symm)]
    have hmem : ({ Before := g, After := n } : GroupUpdate α) ∈
        new.filterMap (updateFor equals old) := by
      apply List.mem_filterMap.2
      exact ⟨n, hn, by simp [updateFor, hfirst, he]⟩
    rw [followUpdates_of_update _ g n hne (fun u hu hb => (honly u hu hb).1) hmem]
    exact hrefl n

theorem applyActions_required {α : Type} [DecidableEq α]
    (equals : Group α → Group α → Bool) (old new : List (Group α)) :
    applyActions old (GroupActionsRequired equals old new) =
      (old.filter (fun g => hasKey new g.Email)).map
          (followUpdates (new.filterMap (updateFor equals old)))
        ++ new.filter (fun n => !hasKey old n.Email) := by
  rw [GroupActionsRequired_eq]
  simp only [applyActions]
  rw [foldl_replaceGroup]
  congr 2
  apply List.filter_congr
  intro g hg
  cases hk : hasKey new g.Email <;> simp [hk, hg]

theorem mem_applyActions_required {α : Type} [DecidableEq α]
    (equals : Group α → Group α → Bool) (old new : List (Group α)) (r : Group α)
    (hr : r ∈ applyActions old (GroupActionsRequired equals old new)) :
    (∃ g ∈ old, g.Email = r.Email ∧ hasKey new g.Email = true ∧
      r = followUpdates (new.filterMap (updateFor equals old)) g) ∨
    (r ∈ new ∧ hasKey old r.Email = false) := by
  rw [applyActions_required, List.mem_append] at hr
  rcases hr with h | h
  · left
    obtain ⟨g, hg, hgr⟩ := List.mem_map.1 h
    obtain ⟨hgo, hgk⟩ := List.mem_filter.1 hg
    refine ⟨g, hgo, ?_, hgk, hgr.symm⟩
    rw [← hgr]
    exact (followUpdates_email _ (fun u hu => (mem_updates hu).2.2.1) g).symm
  · right
    obtain ⟨hn, hk⟩ := List.mem_filter.1 h
    exact ⟨hn, by simpa using hk⟩

/-- C2: convergence. With pairwise distinct Emails in `old` and in `new` and a
reflexive `Group.equals`, the diff of `new` against the result of applying
`GroupActionsRequired(old, new)` to `old` is the empty action set. -/
theorem GroupActionsRequired_converges {α : Type} [DecidableEq α]
    (equals : Group α → Group α → Bool) (hrefl : ∀ g, equals g g = true)
    (old new : List (Group α)) (hold : (old.map Group.Email).Nodup)
    (hnew : (new.map Group.Email).Nodup) :
    GroupActionsRequired equals (applyActions old (GroupActionsRequired equals old new)) new =
      { Updates := [], Additions := [], Deletions := [] } ∧
    (GroupActionsRequired equals
      (applyActions old (GroupActionsRequired equals old new)) new).Amount = 0 := by
  have hupd : new.filterMap
      (updateFor equals (applyActions old (GroupActionsRequired equals old new))) = [] := by
    rw [List.filterMap_eq_nil_iff]
    intro n hn
    cases hu : updateFor equals (applyActions old (GroupActionsRequired equals old new)) n with
    | none => rfl
    | some u =>
      obtain ⟨hf, _, he⟩ := updateFor_some hu
      obtain ⟨hmem, hk⟩ := firstMatch_some hf
      rcases mem_applyActions_required equals old new _ hmem with ⟨g, hg, hgk, _, hfu⟩ | ⟨hbn, _⟩
      · rw [hfu, followUpdates_equals equals hrefl old new hold hnew n g hn hg
          (hgk.trans hk)] at he
        cases he
      · rw [email_injOn hnew hbn hn hk, hrefl n] at he
        cases he
  have hadd : new.filter
      (fun n => !hasKey (applyActions old (GroupActionsRequired equals old new)) n.Email) =
        [] := by
    rw [List.filter_eq_nil_iff]
    intro n hn
    simp only [Bool.not_eq_true', Bool.not_eq_false]
    rw [hasKey_iff, applyActions_required]
    cases hk : hasKey old n.Email with
    | false =>
      exact ⟨n, List.mem_append_right _ (List.mem_filter.2 ⟨hn, by simp [hk]⟩), rfl⟩
    | true =>
      obtain ⟨g, hg, hgk⟩ := (hasKey_iff old n.Email).1 hk
      refine ⟨followUpdates (new.filterMap (updateFor equals old)) g,
        List.mem_append_left _ (List.mem_map.2 ⟨g, List.mem_filter.2 ⟨hg, ?_⟩, rfl⟩), ?_⟩
      · exact (hasKey_iff new g.Email).2 ⟨n, hn, hgk.symm⟩
      · rw [followUpdates_email _ (fun u hu => (mem_updates hu).2.2.1) g]
        exact hgk
  have hdel : (applyActions old (GroupActionsRequired equals old new)).filter
      (fun o => !hasKey new o.Email) = [] := by
    rw [List.filter_eq_nil_iff]
    intro r hr
    simp only [Bool.not_eq_true', Bool.not_eq_false]
    rcases mem_applyActions_required equals old new r hr with ⟨g, _, hgk, hkn, _⟩ | ⟨hrn, _⟩
    · rw [← hgk]
      exact hkn
    · exact (hasKey_iff new r.Email).2 ⟨r, hrn, rfl⟩
  rw [GroupActionsRequired_eq equals (applyActions old (GroupActionsRequired equals old new))]
  simp [GroupActions.Amount, hupd, hadd, hdel]

/-- Witness of C2 on `old = [a@x "A", c@x]`, `new = [a@x "A2", b@x]`. -/
theorem GroupActionsRequired_converges_witness :
    GroupActionsRequired sampleEquals
        (applyActions [groupA, groupC]
          (GroupActionsRequired sampleEquals [groupA, groupC] [groupA', groupB]))
        [groupA', groupB] =
      { Updates := [], Additions := [], Deletions := [] } ∧
    (GroupActionsRequired sampleEquals
        (applyActions [groupA, groupC]
          (GroupActionsRequired sampleEquals [groupA, groupC] [groupA', groupB]))
        [groupA', groupB]).Amount = 0 :=
  GroupActionsRequired_converges sampleEquals (by simp [sampleEquals])
    [groupA, groupC] [groupA', groupB] (by decide) (by decide)

/-! ## The executor: the three loops under a recording service -/

theorem commitDeletions_recording {σ α ε : Type} (service : UpdateService σ α ε)
    (l : List (Group α)) (errors : GroupActionErrors α ε) (s : σ)
    (log : List (ServiceCall α × Option ε)) :
    ∃ L : List (ServiceCall α × Option ε),
      L.map Prod.fst = l.map ServiceCall.DeleteGroup ∧
      (commitDeletions service l errors s).1 =
        { Updates := errors.Updates, Additions := errors.Additions,
          Deletions := errors.Deletions ++ L.filterMap failedDeletion } ∧
      commitDeletions (recording service) l errors (s, log) =
        ((commitDeletions service l errors s).1,
          ((commitDeletions service l errors s).2, log ++ L)) := by
  induction l generalizing errors s log with
  | nil => exact ⟨[], by simp [commitDeletions]⟩
  | cons g rest ih =>
    cases hr : service.DeleteGroup g s with
    | mk err s' =>
      cases err with
      | none =>
        obtain ⟨L, h1, h2, h3⟩ := ih errors s' (log ++ [(ServiceCall.DeleteGroup g, none)])
        refine ⟨(ServiceCall.DeleteGroup g, none) :: L, ?_, ?_, ?_⟩
        · simp [h1]
        · simp [commitDeletions, hr, h2, failedDeletion]
        · have hstep : commitDeletions (recording service) (g :: rest) errors (s, log) =
              commitDeletions (recording service) rest errors
                (s', log ++ [(ServiceCall.DeleteGroup g, none)]) := by
            simp [commitDeletions, recording, hr]
          rw [hstep, h3]
          simp [commitDeletions, hr]
      | some e =>
        obtain ⟨L, h1, h2, h3⟩ := ih
          { errors with
            Deletions := errors.Deletions ++ [{ Action := g, Error := some e }] }
          s' (log ++ [(ServiceCall.DeleteGroup g, some e)])
        refine ⟨(ServiceCall.DeleteGroup g, some e) :: L, ?_, ?_, ?_⟩
        · simp [h1]
        · simp [commitDeletions, hr, h2, failedDeletion]
        · have hstep : commitDeletions (recording service) (g :: rest) errors (s, log) =
              commitDeletions (recording service) rest
                { errors with
                  Deletions := errors.Deletions ++ [{ Action := g, Error := some e }] }
                (s', log ++ [(ServiceCall.DeleteGroup g, some e)]) := by
            simp [commitDeletions, recording, hr]
          rw [hstep, h3]
          simp [commitDeletions, hr]

theorem commitUpdates_recording {σ α ε : Type} (service : UpdateService σ α ε)
    (l : List (GroupUpdate α)) (errors : GroupActionErrors α ε) (s : σ)
    (log : List (ServiceCall α × Option ε)) :
    ∃ L : List (ServiceCall α × Option ε),
      L.map Prod.fst = l.map ServiceCall.UpdateGroup ∧
      (commitUpdates service l errors s).1 =
        { Updates := errors.Updates ++ L.filterMap failedUpdate,
          Additions := errors.Additions, Deletions := errors.Deletions } ∧
      commitUpdates (recording service) l errors (s, log) =
        ((commitUpdates service l errors s).1,
          ((commitUpdates service l errors s).2, log ++ L)) := by
  induction l generalizing errors s log with
  | nil => exact ⟨[], by simp [commitUpdates]⟩
  | cons g rest ih =>
    cases hr : service.UpdateGroup g s with
    | mk err s' =>
      cases err with
      | none =>
        obtain ⟨L, h1, h2, h3⟩ := ih errors s' (log ++ [(ServiceCall.UpdateGroup g, none)])
        refine ⟨(ServiceCall.UpdateGroup g, none) :: L, ?_, ?_, ?_⟩
        · simp [h1]
        · simp [commitUpdates, hr, h2, failedUpdate]
        · have hstep : commitUpdates (recording service) (g :: rest) errors (s, log) =
              commitUpdates (recording service) rest errors
                (s', log ++ [(ServiceCall.UpdateGroup g, none)]) := by
            simp [commitUpdates, recording, hr]
          rw [hstep, h3]
          simp [commitUpdates, hr]
      | some e =>
        obtain ⟨L, h1, h2, h3⟩ := ih
          { errors with
            Updates := errors.Updates ++ [{ Action := g, Error := some e }] }
          s' (log ++ [(ServiceCall.UpdateGroup g, some e)])
        refine ⟨(ServiceCall.UpdateGroup g, some e) :: L, ?_, ?_, ?_⟩
        · simp [h1]
        · simp [commitUpdates, hr, h2, failedUpdate]
        · have hstep : commitUpdates (recording service) (g :: rest) errors (s, log) =
              commitUpdates (recording service) rest
                { errors with
                  Updates := errors.Updates ++ [{ Action := g, Error := some e }] }
                (s', log ++ [(ServiceCall.UpdateGroup g, some e)]) := by
            simp [commitUpdates, recording, hr]
          rw [hstep, h3]
          simp [commitUpdates, hr]

theorem commitAdditions_recording {σ α ε : Type} (service : UpdateService σ α ε)
    (l : List (Group α)) (errors : GroupActionErrors α ε) (s : σ)
    (log : List (ServiceCall α × Option ε)) :
    ∃ L : List (ServiceCall α × Option ε),
      L.map Prod.fst = l.map ServiceCall.AddGroup ∧
      (commitAdditions service l errors s).1 =
        { Updates := errors.Updates,
          Additions := errors.Additions ++ L.filterMap failedAddition,
          Deletions := errors.Deletions } ∧
      commitAdditions (recording service) l errors (s, log) =
        ((commitAdditions service l errors s).1,
          ((commitAdditions service l errors s).2, log ++ L)) := by
  induction l generalizing errors s log with
  | nil => exact ⟨[], by simp [commitAdditions]⟩
  | cons g rest ih =>
    cases hr : service.AddGroup g s with
    | mk err s' =>
      cases err with
      | none =>
        obtain ⟨L, h1, h2, h3⟩ := ih errors s' (log ++ [(ServiceCall.AddGroup g, none)])
        refine ⟨(ServiceCall.AddGroup g, none) :: L, ?_, ?_, ?_⟩
        · simp [h1]
        · simp [commitAdditions, hr, h2, failedAddition]
        · have hstep : commitAdditions (recording service) (g :: rest) errors (s, log) =
              commitAdditions (recording service) rest errors
                (s', log ++ [(ServiceCall.AddGroup g, none)]) := by
            simp [commitAdditions, recording, hr]
          rw [hstep, h3]
          simp [commitAdditions, hr]
      | some e =>
        obtain ⟨L, h1, h2, h3⟩ := ih
          { errors with
            Additions := errors.Additions ++ [{ Action := g, Error := some e }] }
          s' (log ++ [(ServiceCall.AddGroup g, some e)])
        refine ⟨(ServiceCall.AddGroup g, some e) :: L, ?_, ?_, ?_⟩
        · simp [h1]
        · simp [commitAdditions, hr, h2, failedAddition]
        · have hstep : commitAdditions (recording service) (g :: rest) errors (s, log) =
              commitAdditions (recording service) rest
                { errors with
                  Additions := errors.Additions ++ [{ Action := g, Error := some e }] }
                (s', log ++ [(ServiceCall.AddGroup g, some e)]) := by
            simp [commitAdditions, recording, hr]
          rw [hstep, h3]
          simp [commitAdditions, hr]

theorem Commit_eq {σ α ε : Type} (actions : GroupActions α) (service : UpdateService σ α ε)
    (s : σ) :
    actions.Commit service s =
      commitAdditions service actions.Additions
        (commitUpdates service actions.Updates
          (commitDeletions service actions.Deletions
            { Updates := [], Additions := [], Deletions := [] } s).1
          (commitDeletions service actions.Deletions
            { Updates := [], Additions := [], Deletions := [] } s).2).1
        (commitUpdates service actions.Updates
          (commitDeletions service actions.Deletions
            { Updates := [], Additions := [], Deletions := [] } s).1
          (commitDeletions service actions.Deletions
            { Updates := [], Additions := [], Deletions := [] } s).2).2 := by
  obtain ⟨upd, add, del⟩ := actions
  cases upd <;> cases add <;> cases del <;>
    simp [GroupActions.Commit, commitDeletions, commitUpdates, commitAdditions]

theorem filterMap_failed_of_deletions {α ε : Type} {L : List (ServiceCall α × Option ε)}
    {l : List (Group α)} (h : L.map Prod.fst = l.map ServiceCall.DeleteGroup) :
    L.filterMap failedUpdate = [] ∧ L.filterMap failedAddition = [] ∧
      (L.filterMap failedDeletion = [] ↔ ∀ c ∈ L, c.2 = none) := by
  induction L generalizing l with
  | nil => simp
  | cons c rest ih =>
    cases l with
    | nil => simp at h
    | cons g l' =>
      simp only [List.map_cons, List.cons.injEq] at h
      obtain ⟨h1, h2, h3⟩ := ih h.2
      obtain ⟨call, err⟩ := c
      simp only at h
      obtain ⟨hc, _⟩ := h
      subst hc
      cases err <;>
        simp [List.filterMap_cons, failedUpdate, failedAddition, failedDeletion, h1, h2, h3]

theorem filterMap_failed_of_updates {α ε : Type} {L : List (ServiceCall α × Option ε)}
    {l : List (GroupUpdate α)} (h : L.map Prod.fst = l.map ServiceCall.UpdateGroup) :
    L.filterMap failedDeletion = [] ∧ L.filterMap failedAddition = [] ∧
      (L.filterMap failedUpdate = [] ↔ ∀ c ∈ L, c.2 = none) := by
  induction L generalizing l with
  | nil => simp
  | cons c rest ih =>
    cases l with
    | nil => simp at h
    | cons g l' =>
      simp only [List.map_cons, List.cons.injEq] at h
      obtain ⟨h1, h2, h3⟩ := ih h.2
      obtain ⟨call, err⟩ := c
      simp only at h
      obtain ⟨hc, _⟩ := h
      subst hc
      cases err <;>
        simp [List.filterMap_cons, failedUpdate, failedAddition, failedDeletion, h1, h2, h3]

theorem filterMap_failed_of_additions {α ε : Type} {L : List (ServiceCall α × Option ε)}
    {l : List (Group α)} (h : L.map Prod.fst = l.map ServiceCall.AddGroup) :
    L.filterMap failedDeletion = [] ∧ L.filterMap failedUpdate = [] ∧
      (L.filterMap failedAddition = [] ↔ ∀ c ∈ L, c.2 = none) := by
  induction L generalizing l with
  | nil => simp
  | cons c rest ih =>
    cases l with
    | nil => simp at h
    | cons g l' =>
      simp only [List.map_cons, List.cons.injEq] at h
      obtain ⟨h1, h2, h3⟩ := ih h.2
      obtain ⟨call, err⟩ := c
      simp only at h
      obtain ⟨hc, _⟩ := h
      subst hc
      cases err <;>
        simp [List.filterMap_cons, failedUpdate, failedAddition, failedDeletion, h1, h2, h3]

theorem Commit_recording {σ α ε : Type} (actions : GroupActions α)
    (service : UpdateService σ α ε) (s : σ) :
    ∃ Ld Lu La : List (ServiceCall α × Option ε),
      Ld.map Prod.fst = actions.Deletions.map ServiceCall.DeleteGroup ∧
      Lu.map Prod.fst = actions.Updates.map ServiceCall.UpdateGroup ∧
      La.map Prod.fst = actions.Additions.map ServiceCall.AddGroup ∧
      (actions.Commit service s).1 =
        { Updates := Lu.filterMap failedUpdate, Additions := La.filterMap failedAddition,
          Deletions := Ld.filterMap failedDeletion } ∧
      actions.Commit (recording service) (s, []) =
        ((actions.Commit service s).1, ((actions.Commit service s).2, Ld ++ Lu ++ La)) := by
  obtain ⟨Ld, hd1, hd2, hd3⟩ := commitDeletions_recording service actions.Deletions
    { Updates := [], Additions := [], Deletions := [] } s []
  obtain ⟨Lu, hu1, hu2, hu3⟩ := commitUpdates_recording service actions.Updates
    (commitDeletions service actions.Deletions
      { Updates := [], Additions := [], Deletions := [] } s).1
    (commitDeletions service actions.Deletions
      { Updates := [], Additions := [], Deletions := [] } s).2 ([] ++ Ld)
  obtain ⟨La, ha1, ha2, ha3⟩ := commitAdditions_recording service actions.Additions
    (commitUpdates service actions.Updates
      (commitDeletions service actions.Deletions
        { Updates := [], Additions := [], Deletions := [] } s).1
      (commitDeletions service actions.Deletions
        { Updates := [], Additions := [], Deletions := [] } s).2).1
    (commitUpdates service actions.Updates
      (commitDeletions service actions.Deletions
        { Updates := [], Additions := [], Deletions := [] } s).1
      (commitDeletions service actions.Deletions
        { Updates := [], Additions := [], Deletions := [] } s).2).2 ([] ++ Ld ++ Lu)
  refine ⟨Ld, Lu, La, hd1, hu1, ha1, ?_, ?_⟩
  · rw [Commit_eq, ha2, hu2, hd2]
    simp
  · rw [Commit_eq, Commit_eq, hd3, hu3, ha3]
    simp

/-! ## The executor: the claims -/

/-- C8: phase ordering of `Commit`. For every action set and every service, in
every state: the calls made are exactly `DeleteGroup` on each element of
`Deletions` in stored order, then `UpdateGroup` on each element of `Updates` in
stored order, then `AddGroup` on each element of `Additions` in stored order.
(Logging changes neither the errors returned nor the final service state.) -/
theorem Commit_phase_order {σ α ε : Type} (actions : GroupActions α)
    (service : UpdateService σ α ε) (s : σ) :
    (commitLog actions service s).map Prod.fst =
      actions.Deletions.map ServiceCall.DeleteGroup ++
        actions.Updates.map ServiceCall.UpdateGroup ++
        actions.Additions.map ServiceCall.AddGroup ∧
    (actions.Commit (recording service) (s, [])).1 = (actions.Commit service s).1 ∧
    (actions.Commit (recording service) (s, [])).2.1 = (actions.Commit service s).2 := by
  obtain ⟨Ld, Lu, La, hd, hu, ha, _, hrec⟩ := Commit_recording actions service s
  refine ⟨?_, ?_, ?_⟩
  · simp [commitLog, hrec, hd, hu, ha]
  · rw [hrec]
  · rw [hrec]

/-- C9: partial-failure isolation. For every action set and every service:
`Commit` calls the service once for every action of the set, whatever the calls
return (the log has `Amount()` entries, one per action, in order), and each
category of the returned error set holds exactly the actions of that category
whose call returned an error, in order, each with the error of its call. -/
theorem Commit_partial_failure {σ α ε : Type} (actions : GroupActions α)
    (service : UpdateService σ α ε) (s : σ) :
    (commitLog actions service s).map Prod.fst = expectedCalls actions ∧
    (commitLog actions service s).length = actions.Amount ∧
    (actions.Commit service s).1.Deletions =
      (commitLog actions service s).filterMap failedDeletion ∧
    (actions.Commit service s).1.Updates =
      (commitLog actions service s).filterMap failedUpdate ∧
    (actions.Commit service s).1.Additions =
      (commitLog actions service s).filterMap failedAddition := by
  obtain ⟨Ld, Lu, La, hd, hu, ha, herr, hrec⟩ := Commit_recording actions service s
  have hlog : commitLog actions service s = Ld ++ Lu ++ La := by
    simp [commitLog, hrec]
  obtain ⟨hdu, hda, _⟩ := filterMap_failed_of_deletions hd
  obtain ⟨hud, hua, _⟩ := filterMap_failed_of_updates hu
  obtain ⟨had, hau, _⟩ := filterMap_failed_of_additions ha
  have hlen : (Ld ++ Lu ++ La).length = actions.Amount := by
    have e1 := congrArg List.length hd
    have e2 := congrArg List.length hu
    have e3 := congrArg List.length ha
    simp only [List.length_map] at e1 e2 e3
    simp only [List.length_append, GroupActions.Amount, e1, e2, e3]
    omega
  rw [hlog, herr]
  refine ⟨?_, hlen, ?_, ?_, ?_⟩
  · simp [expectedCalls, hd, hu, ha]
  · simp [List.filterMap_append, hud, had]
  · simp [List.filterMap_append, hdu, hau]
  · simp [List.filterMap_append, hda, hua]

/-- C10: the error set returned by `Commit` has `Amount() == 0` iff every
service call made during the commit returned `nil`; committing the empty action
set returns the empty error set, makes no call and leaves the service state as
it was. -/
theorem Commit_amount_zero_iff {σ α ε : Type} (actions : GroupActions α)
    (service : UpdateService σ α ε) (s : σ) :
    ((actions.Commit service s).1.Amount = 0 ↔
      ∀ c ∈ commitLog actions service s, c.2 = none) ∧
    (({ Updates := [], Additions := [], Deletions := [] } : GroupActions α).Commit
        service s).1 = { Updates := [], Additions := [], Deletions := [] } ∧
    commitLog ({ Updates := [], Additions := [], Deletions := [] } : GroupActions α)
      service s = [] ∧
    (({ Updates := [], Additions := [], Deletions := [] } : GroupActions α).Commit
        service s).2 = s := by
  obtain ⟨Ld, Lu, La, hd, hu, ha, herr, hrec⟩ := Commit_recording actions service s
  have hlog : commitLog actions service s = Ld ++ Lu ++ La := by
    simp [commitLog, hrec]
  obtain ⟨_, _, hdd⟩ := filterMap_failed_of_deletions hd
  obtain ⟨_, _, huu⟩ := filterMap_failed_of_updates hu
  obtain ⟨_, _, haa⟩ := filterMap_failed_of_additions ha
  refine ⟨?_, ?_, ?_, ?_⟩
  · rw [hlog, herr]
    simp only [GroupActionErrors.Amount, Nat.add_eq_zero, List.length_eq_zero, hdd, huu, haa,
      List.mem_append]
    constructor
    · rintro ⟨⟨h1, h2⟩, h3⟩ c ((hc | hc) | hc)
      · exact h2 c hc
      · exact h3 c hc
      · exact h1 c hc
    · intro h
      exact ⟨⟨fun c hc => h c (Or.inr hc), fun c hc => h c (Or.inl (Or.inl hc))⟩,
        fun c hc => h c (Or.inl (Or.inr hc))⟩
  · simp [GroupActions.Commit]
  · simp [commitLog, GroupActions.Commit]
  · simp [GroupActions.Commit]

theorem failed_sublist_of_deletions {α ε : Type} {L : List (ServiceCall α × Option ε)}
    {l : List (Group α)} (h : L.map Prod.fst = l.map ServiceCall.DeleteGroup) :
    List.Sublist ((L.filterMap failedDeletion).map GroupAddOrDelError.Action) l ∧
      ∀ x ∈ L.filterMap failedDeletion, ∃ e, x.Error = some e := by
  induction L generalizing l with
  | nil => simp
  | cons c rest ih =>
    cases l with
    | nil => simp at h
    | cons g l' =>
      simp only [List.map_cons, List.cons.injEq] at h
      obtain ⟨h1, h2⟩ := ih h.2
      obtain ⟨call, err⟩ := c
      simp only at h
      obtain ⟨hc, _⟩ := h
      subst hc
      cases err with
      | none =>
        have hnone : failedDeletion (ServiceCall.DeleteGroup g, (none : Option ε)) = none := rfl
        rw [List.filterMap_cons_none hnone]
        exact ⟨List.Sublist.cons g h1, h2⟩
      | some e =>
        have hsome : failedDeletion (ServiceCall.DeleteGroup g, some e) =
            some { Action := g, Error := some e } := rfl
        rw [List.filterMap_cons_some hsome]
        refine ⟨List.Sublist.cons₂ g h1, ?_⟩
        intro x hx
        rcases List.mem_cons.1 hx with hx | hx
        · exact ⟨e, by rw [hx]⟩
        · exact h2 x hx

theorem failed_sublist_of_updates {α ε : Type} {L : List (ServiceCall α × Option ε)}
    {l : List (GroupUpdate α)} (h : L.map Prod.fst = l.map ServiceCall.UpdateGroup) :
    List.Sublist ((L.filterMap failedUpdate).map GroupUpdateError.Action) l ∧
      ∀ x ∈ L.filterMap failedUpdate, ∃ e, x.Error = some e := by
  induction L generalizing l with
  | nil => simp
  | cons c rest ih =>
    cases l with
    | nil => simp at h
    | cons g l' =>
      simp only [List.map_cons, List.cons.injEq] at h
      obtain ⟨h1, h2⟩ := ih h.2
      obtain ⟨call, err⟩ := c
      simp only at h
      obtain ⟨hc, _⟩ := h
      subst hc
      cases err with
      | none =>
        have hnone : failedUpdate (ServiceCall.UpdateGroup g, (none : Option ε)) = none := rfl
        rw [List.filterMap_cons_none hnone]
        exact ⟨List.Sublist.cons g h1, h2⟩
      | some e =>
        have hsome : failedUpdate (ServiceCall.UpdateGroup g, some e) =
            some { Action := g, Error := some e } := rfl
        rw [List.filterMap_cons_some hsome]
        refine ⟨List.Sublist.cons₂ g h1, ?_⟩
        intro x hx
        rcases List.mem_cons.1 hx with hx | hx
        · exact ⟨e, by rw [hx]⟩
        · exact h2 x hx

theorem failed_sublist_of_additions {α ε : Type} {L : List (ServiceCall α × Option ε)}
    {l : List (Group α)} (h : L.map Prod.fst = l.map ServiceCall.AddGroup) :
    List.Sublist ((L.filterMap failedAddition).map GroupAddOrDelError.Action) l ∧
      ∀ x ∈ L.filterMap failedAddition, ∃ e, x.Error = some e := by
  induction L generalizing l with
  | nil => simp
  | cons c rest ih =>
    cases l with
    | nil => simp at h
    | cons g l' =>
      simp only [List.map_cons, List.cons.injEq] at h
      obtain ⟨h1, h2⟩ := ih h.2
      obtain ⟨call, err⟩ := c
      simp only at h
      obtain ⟨hc, _⟩ := h
      subst hc
      cases err with
      | none =>
        have hnone : failedAddition (ServiceCall.AddGroup g, (none : Option ε)) = none := rfl
        rw [List.filterMap_cons_none hnone]
        exact ⟨List.Sublist.cons g h1, h2⟩
      | some e =>
        have hsome : failedAddition (ServiceCall.AddGroup g, some e) =
            some { Action := g, Error := some e } := rfl
        rw [List.filterMap_cons_some hsome]
        refine ⟨List.Sublist.cons₂ g h1, ?_⟩
        intro x hx
        rcases List.mem_cons.1 hx with hx | hx
        · exact ⟨e, by rw [hx]⟩
        · exact h2 x hx

theorem Commit_errors_recorded {σ α ε : Type} (actions : GroupActions α)
    (service : UpdateService σ α ε) (s : σ) :
    (List.Sublist ((actions.Commit service s).1.Deletions.map GroupAddOrDelError.Action)
        actions.Deletions ∧
      ∀ x ∈ (actions.Commit service s).1.Deletions, ∃ e, x.Error = some e) ∧
    (List.Sublist ((actions.Commit service s).1.Updates.map GroupUpdateError.Action)
        actions.Updates ∧
      ∀ x ∈ (actions.Commit service s).1.Updates, ∃ e, x.Error = some e) ∧
    (List.Sublist ((actions.Commit service s).1.Additions.map GroupAddOrDelError.Action)
        actions.Additions ∧
      ∀ x ∈ (actions.Commit service s).1.Additions, ∃ e, x.Error = some e) := by
  obtain ⟨Ld, Lu, La, hd, hu, ha, herr, _⟩ := Commit_recording actions service s
  rw [herr]
  exact ⟨failed_sublist_of_deletions hd, failed_sublist_of_updates hu,
    failed_sublist_of_additions ha⟩

/-- C11: the error set is never larger than the action set it came from. With
`e = a.Commit(s)`: each category of `e` is at most as long as the category of
`a`, so `e.Amount() <= a.Amount()`, and in each category the recorded actions
form a subsequence of the action list. -/
theorem Commit_errors_bounded {σ α ε : Type} (actions : GroupActions α)
    (service : UpdateService σ α ε) (s : σ) :
    (actions.Commit service s).1.Deletions.length ≤ actions.Deletions.length ∧
    (actions.Commit service s).1.Updates.length ≤ actions.Updates.length ∧
    (actions.Commit service s).1.Additions.length ≤ actions.Additions.length ∧
    (actions.Commit service s).1.Amount ≤ actions.Amount ∧
    List.Sublist ((actions.Commit service s).1.Deletions.map GroupAddOrDelError.Action)
      actions.Deletions ∧
    List.Sublist ((actions.Commit service s).1.Updates.map GroupUpdateError.Action)
      actions.Updates ∧
    List.Sublist ((actions.Commit service s).1.Additions.map GroupAddOrDelError.Action)
      actions.Additions := by
  obtain ⟨⟨hd, _⟩, ⟨hu, _⟩, ⟨ha, _⟩⟩ := Commit_errors_recorded actions service s
  have ld := hd.length_le
  have lu := hu.length_le
  have la := ha.length_le
  simp only [List.length_map] at ld lu la
  refine ⟨ld, lu, la, ?_, hd, hu, ha⟩
  simp only [GroupActionErrors.Amount, GroupActions.Amount]
  omega

/-! ## The diff engine: duplicated keys, soundness, disjointness, duality -/

theorem firstMatch_append_cons {α : Type} (pre post : List (Group α)) (o : Group α)
    (k : String) (hpre : ∀ g ∈ pre, g.Email ≠ k) (hkey : o.Email = k) :
    firstMatch (pre ++ o :: post) k = some o := by
  have hnone : firstMatch pre k = none :=
    (firstMatch_eq_none pre k).2 ((hasKey_eq_false_iff pre k).2 hpre)
  unfold firstMatch at hnone ⊢
  rw [List.find?_append, hnone]
  simp [hkey]

theorem updateFor_none_of_hasKey_false {α : Type} (equals : Group α → Group α → Bool)
    (old : List (Group α)) (n : Group α) (h : hasKey old n.Email = false) :
    updateFor equals old n = none := by
  simp [updateFor, (firstMatch_eq_none old n.Email).2 h]

theorem updates_additions_length {α : Type} (equals : Group α → Group α → Bool)
    (old l : List (Group α)) :
    (l.filterMap (updateFor equals old)).length +
      (l.filter (fun n => !hasKey old n.Email)).length ≤ l.length := by
  induction l with
  | nil => simp
  | cons n rest ih =>
    cases hk : hasKey old n.Email with
    | false =>
      rw [List.filterMap_cons_none (updateFor_none_of_hasKey_false equals old n hk)]
      simp only [List.filter_cons, hk, Bool.not_false, if_true, List.length_cons]
      omega
    | true =>
      have hle : ((n :: rest).filterMap (updateFor equals old)).length ≤
          (rest.filterMap (updateFor equals old)).length + 1 := by
        cases hu : updateFor equals old n with
        | none => rw [List.filterMap_cons_none hu]; omega
        | some u => rw [List.filterMap_cons_some hu]; simp
      simp only [List.filter_cons, hk, List.length_cons]
      simp only [Bool.not_true, Bool.false_eq_true, if_false]
      omega

/-- C14: first match wins on duplicated keys. If `o` is the first group of `old`
with the Email of `n` (whatever follows `o` in `old`), then the occurrence of
`n` in `new` contributes to `Updates` the single update `{Before: o, After: n}`
when `n.equals(o)` is false and nothing when it is true. -/
theorem GroupActionsRequired_first_match {α : Type} (equals : Group α → Group α → Bool)
    (pre post a b : List (Group α)) (o n : Group α)
    (hpre : ∀ g ∈ pre, g.Email ≠ n.Email) (hkey : o.Email = n.Email) :
    (GroupActionsRequired equals (pre ++ o :: post) (a ++ n :: b)).Updates =
      (GroupActionsRequired equals (pre ++ o :: post) a).Updates ++
        (if equals n o then [] else [{ Before := o, After := n }]) ++
        (GroupActionsRequired equals (pre ++ o :: post) b).Updates := by
  have hu : updateFor equals (pre ++ o :: post) n =
      if equals n o then none else some { Before := o, After := n } := by
    simp [updateFor, firstMatch_append_cons pre post o n.Email hpre hkey]
  simp only [GroupActionsRequired_eq, List.filterMap_append, List.filterMap_cons, hu]
  cases equals n o <;> simp

/-- Witness of C14: `old` holds `a@x` twice; the update of `a@x "A2"` is paired
with the first of them, although the second one equals the new group. -/
theorem GroupActionsRequired_first_match_witness :
    (GroupActionsRequired sampleEquals ([] ++ groupA :: [groupA'])
        ([groupB] ++ groupA' :: [])).Updates =
      (GroupActionsRequired sampleEquals ([] ++ groupA :: [groupA']) [groupB]).Updates ++
        (if sampleEquals groupA' groupA then [] else [{ Before := groupA, After := groupA' }]) ++
        (GroupActionsRequired sampleEquals ([] ++ groupA :: [groupA']) []).Updates :=
  GroupActionsRequired_first_match sampleEquals [] [groupA'] [groupB] [] groupA groupA'
    (by simp) (by decide)

/-- C15: soundness of updates. Every update of `GroupActionsRequired(old, new)`
has its `Before` in `old`, its `After` in `new`, the same Email on both sides
and `After.equals(Before)` false; and updates plus additions are at most
`len(new)`. -/
theorem GroupActionsRequired_updates_sound {α : Type} (equals : Group α → Group α → Bool)
    (old new : List (Group α)) :
    (∀ u ∈ (GroupActionsRequired equals old new).Updates,
      u.Before ∈ old ∧ u.After ∈ new ∧ u.Before.Email = u.After.Email ∧
        equals u.After u.Before = false) ∧
    (GroupActionsRequired equals old new).Updates.length +
      (GroupActionsRequired equals old new).Additions.length ≤ new.length := by
  rw [GroupActionsRequired_eq]
  refine ⟨?_, updates_additions_length equals old new⟩
  intro u hu
  obtain ⟨ha, hb, hk, _, he⟩ := mem_updates hu
  exact ⟨hb, ha, hk, he⟩

/-- C16: the three buckets never collide on Emails. No group of `Additions` has
the Email of a group of `Deletions` or of the `Before` or `After` of an update,
and no group of `Deletions` has the Email of the `Before` or `After` of an
update. -/
theorem GroupActionsRequired_disjoint_keys {α : Type} (equals : Group α → Group α → Bool)
    (old new : List (Group α)) :
    (∀ a ∈ (GroupActionsRequired equals old new).Additions,
      (∀ d ∈ (GroupActionsRequired equals old new).Deletions, a.Email ≠ d.Email) ∧
      ∀ u ∈ (GroupActionsRequired equals old new).Updates,
        a.Email ≠ u.Before.Email ∧ a.Email ≠ u.After.Email) ∧
    (∀ d ∈ (GroupActionsRequired equals old new).Deletions,
      ∀ u ∈ (GroupActionsRequired equals old new).Updates,
        d.Email ≠ u.Before.Email ∧ d.Email ≠ u.After.Email) := by
  rw [GroupActionsRequired_eq]
  have hadd : ∀ a ∈ new.filter (fun n => !hasKey old n.Email),
      ∀ g ∈ old, g.Email ≠ a.Email := by
    intro a ha
    have := (List.mem_filter.1 ha).2
    simp only [Bool.not_eq_true', hasKey_eq_false_iff] at this
    exact this
  have hdel : ∀ d ∈ old.filter (fun o => !hasKey new o.Email),
      d ∈ old ∧ ∀ g ∈ new, g.Email ≠ d.Email := by
    intro d hd
    have := List.mem_filter.1 hd
    simp only [Bool.not_eq_true', hasKey_eq_false_iff] at this
    exact this
  refine ⟨fun a ha => ⟨fun d hd h => ?_, fun u hu => ⟨fun h => ?_, fun h => ?_⟩⟩,
    fun d hd u hu => ⟨fun h => ?_, fun h => ?_⟩⟩
  · exact hadd a ha d (hdel d hd).1 h.symm
  · exact hadd a ha u.Before (mem_updates hu).2.1 h.symm
  · exact hadd a ha u.Before (mem_updates hu).2.1 ((mem_updates hu).2.2.1.trans h.symm)
  · exact (hdel d hd).2 u.After (mem_updates hu).1 ((mem_updates hu).2.2.1.symm.trans h.symm)
  · exact (hdel d hd).2 u.After (mem_updates hu).1 h.symm

/-- C17: swap duality of the diff. The deletions of `a` against `b` are the
additions of `b` against `a`, and the additions of `a` against `b` are the
deletions of `b` against `a`, as lists. -/
theorem GroupActionsRequired_swap {α : Type} (equals : Group α → Group α → Bool)
    (a b : List (Group α)) :
    (GroupActionsRequired equals a b).Deletions = (GroupActionsRequired equals b a).Additions ∧
    (GroupActionsRequired equals a b).Additions = (GroupActionsRequired equals b a).Deletions := by
  simp [GroupActionsRequired_eq]

/-! ## Users: semantic equality -/

theorem user_equals_true_iff (lower : String → String) (u v : User) :
    User.equals lower u v = true ↔
      lower u.Cid = lower v.Cid ∧ u.FirstName = v.FirstName ∧
        u.SecondName = v.SecondName ∧ u.Nick = v.Nick ∧
        u.GdprEducation = v.GdprEducation := by
  unfold User.equals
  by_cases h1 : lower u.Cid = lower v.Cid
  · by_cases h2 : u.FirstName = v.FirstName
    · by_cases h3 : u.SecondName = v.SecondName
      · by_cases h4 : u.Nick = v.Nick
        · by_cases h5 : u.GdprEducation = v.GdprEducation
          · simp [h1, h2, h3, h4, h5]
          · simp [h1, h2, h3, h4, h5]
        · simp [h1, h2, h3, h4]
      · simp [h1, h2, h3]
    · simp [h1, h2]
  · simp [h1]

/-- C13: `User.equals` is the semantic equality of users: `u.equals(v)` is true
iff the lower-cased Cids agree and FirstName, SecondName, Nick and GdprEducation
are identical. A user record has no further attribute, so nothing else is
compared; users that differ only in the letter case of the Cid are equal, as the
sample users `ABC` and `abc` are. -/
theorem User_equals_semantic (lower : String → String) (u v : User) :
    (User.equals lower u v = true ↔
      lower u.Cid = lower v.Cid ∧ u.FirstName = v.FirstName ∧
        u.SecondName = v.SecondName ∧ u.Nick = v.Nick ∧
        u.GdprEducation = v.GdprEducation) ∧
    (lower u.Cid = lower v.Cid → User.equals lower u { u with Cid := v.Cid } = true) ∧
    (userUpper ≠ userLower ∧ User.equals ToLower userUpper userLower = true) ∧
    User.equals ToLower userLower userNick = false := by
  refine ⟨user_equals_true_iff lower u v, ?_, ⟨by decide, by decide⟩, by decide⟩
  intro h
  rw [user_equals_true_iff]
  exact ⟨h, rfl, rfl, rfl, rfl⟩

/-- C18: `User.equals` is an equivalence relation: reflexive, symmetric and
transitive. -/
theorem User_equals_equivalence (lower : String → String) (u v w : User) :
    User.equals lower u u = true ∧
    (User.equals lower u v = true → User.equals lower v u = true) ∧
    (User.equals lower u v = true → User.equals lower v w = true →
      User.equals lower u w = true) := by
  refine ⟨(user_equals_true_iff lower u u).2 ⟨rfl, rfl, rfl, rfl, rfl⟩, ?_, ?_⟩
  · intro h
    obtain ⟨h1, h2, h3, h4, h5⟩ := (user_equals_true_iff lower u v).1 h
    exact (user_equals_true_iff lower v u).2 ⟨h1.symm, h2.symm, h3.symm, h4.symm, h5.symm⟩
  · intro h k
    obtain ⟨h1, h2, h3, h4, h5⟩ := (user_equals_true_iff lower u v).1 h
    obtain ⟨k1, k2, k3, k4, k5⟩ := (user_equals_true_iff lower v w).1 k
    exact (user_equals_true_iff lower u w).2
      ⟨h1.trans k1, h2.trans k2, h3.trans k3, h4.trans k4, h5.trans k5⟩

/-- Witness of C18 on the sample users, with letter-by-letter lower-casing. -/
theorem User_equals_equivalence_witness :
    User.equals ToLower userUpper userLower = true ∧
    User.equals ToLower userLower userUpper = true ∧
    User.equals ToLower userUpper userUpper = true :=
  ⟨by decide,
    (User_equals_equivalence ToLower userUpper userLower userUpper).2.1 (by decide),
    (User_equals_equivalence ToLower userUpper userLower userUpper).2.2 (by decide)
      (by decide)⟩

/-! ## Rendering of an error set: lemmas -/

theorem join_cons (x : String) (xs : List String) :
    String.join (x :: xs) = x ++ String.join xs := by
  apply String.ext
  simp [String.data_join]

theorem join_append (xs ys : List String) :
    String.join (xs ++ ys) = String.join xs ++ String.join ys := by
  apply String.ext
  simp [String.data_join]

theorem newlines_append (s t : String) : newlines (s ++ t) = newlines s + newlines t := by
  simp [newlines]

theorem newlines_join (lines : List String) (h : ∀ line ∈ lines, newlines line = 1) :
    newlines (String.join lines) = lines.length := by
  induction lines with
  | nil => rfl
  | cons x xs ih =>
    rw [join_cons, newlines_append, h x (List.mem_cons_self _ _),
      ih (fun l hl => h l (List.mem_cons_of_mem _ hl)), List.length_cons]
    omega

theorem newlines_formatFailure (kind email text : String) :
    newlines (formatFailure kind email text) =
      newlines kind + newlines email + newlines text + 1 := by
  have h1 : newlines " of group \"" = 0 := by decide
  have h2 : newlines "\" failed with error " = 0 := by decide
  have h3 : newlines "\n" = 1 := by decide
  simp only [formatFailure, newlines_append, h1, h2, h3]
  omega

theorem formatFailure_content (kind email text : String) :
    occursIn email (formatFailure kind email text) ∧
    occursIn text (formatFailure kind email text) ∧
    (formatFailure kind email text).data.getLast? = some '\n' := by
  refine ⟨?_, ?_, ?_⟩
  · refine ⟨(kind ++ " of group \"").data, ("\" failed with error " ++ text ++ "\n").data, ?_⟩
    simp [formatFailure, List.append_assoc]
  · refine ⟨(kind ++ " of group \"" ++ email ++ "\" failed with error ").data, "\n".data, ?_⟩
    simp [formatFailure, List.append_assoc]
  · have : (formatFailure kind email text).data =
        (kind ++ " of group \"" ++ email ++ "\" failed with error " ++ text).data ++ ['\n'] := by
      simp [formatFailure]
    rw [this, List.getLast?_concat]

theorem writeLines_some (lines : List String) (builder : String) :
    writeLines (lines.map some) builder = some (builder ++ String.join lines) := by
  induction lines generalizing builder with
  | nil => simp [writeLines, String.join]
  | cons x xs ih =>
    rw [List.map_cons, writeLines, ih, join_cons, String.append_assoc]

theorem eq_map_some_of_all_some {β : Type} (l : List (Option β))
    (h : ∀ x ∈ l, ∃ y, x = some y) : ∃ ys : List β, l = ys.map some := by
  induction l with
  | nil => exact ⟨[], rfl⟩
  | cons x xs ih =>
    obtain ⟨y, hy⟩ := h x (List.mem_cons_self _ _)
    obtain ⟨ys, hys⟩ := ih (fun z hz => h z (List.mem_cons_of_mem _ hz))
    exact ⟨y :: ys, by rw [hy, hys, List.map_cons]⟩

theorem writeDeletions_eq {α ε : Type} (errorText : ε → String)
    (l : List (GroupAddOrDelError α ε)) (builder : String) :
    writeDeletions errorText l builder =
      writeLines (l.map (addOrDelLine errorText "Deletion")) builder := by
  induction l generalizing builder with
  | nil => rfl
  | cons d rest ih =>
    obtain ⟨act, err⟩ := d
    cases err <;> simp [writeDeletions, writeLines, addOrDelLine, ih]

theorem writeUpdates_eq {α ε : Type} (errorText : ε → String)
    (l : List (GroupUpdateError α ε)) (builder : String) :
    writeUpdates errorText l builder = writeLines (l.map (updateLine errorText)) builder := by
  induction l generalizing builder with
  | nil => rfl
  | cons d rest ih =>
    obtain ⟨act, err⟩ := d
    cases err <;> simp [writeUpdates, writeLines, updateLine, ih]

theorem writeAdditions_eq {α ε : Type} (errorText : ε → String)
    (l : List (GroupAddOrDelError α ε)) (builder : String) :
    writeAdditions errorText l builder =
      writeLines (l.map (addOrDelLine errorText "Addition")) builder := by
  induction l generalizing builder with
  | nil => rfl
  | cons d rest ih =>
    obtain ⟨act, err⟩ := d
    cases err <;> simp [writeAdditions, writeLines, addOrDelLine, ih]

theorem mem_of_map_eq_map_some {β γ : Type} {f : β → Option γ} {l : List β} {ys : List γ}
    (h : l.map f = ys.map some) {y : γ} (hy : y ∈ ys) : ∃ x ∈ l, f x = some y := by
  have : some y ∈ l.map f := by
    rw [h]
    exact List.mem_map.2 ⟨y, hy, rfl⟩
  obtain ⟨x, hx, hfx⟩ := List.mem_map.1 this
  exact ⟨x, hx, hfx⟩

theorem addOrDelLine_some {α ε : Type} {errorText : ε → String} {kind : String}
    {d : GroupAddOrDelError α ε} {line : String}
    (h : addOrDelLine errorText kind d = some line) :
    ∃ e, d.Error = some e ∧ line = formatFailure kind d.Action.Email (errorText e) := by
  obtain ⟨act, err⟩ := d
  cases err with
  | none => simp [addOrDelLine] at h
  | some e => exact ⟨e, rfl, by simpa [addOrDelLine] using h.symm⟩

theorem updateLine_some {α ε : Type} {errorText : ε → String}
    {u : GroupUpdateError α ε} {line : String} (h : updateLine errorText u = some line) :
    ∃ e, u.Error = some e ∧
      line = formatFailure "Update" u.Action.After.Email (errorText e) := by
  obtain ⟨act, err⟩ := u
  cases err with
  | none => simp [updateLine] at h
  | some e => exact ⟨e, rfl, by simpa [updateLine] using h.symm⟩

theorem String_eq_join {α ε : Type} (errorText : ε → String) (errors : GroupActionErrors α ε)
    (ld lu la : List String)
    (hld : errors.Deletions.map (addOrDelLine errorText "Deletion") = ld.map some)
    (hlu : errors.Updates.map (updateLine errorText) = lu.map some)
    (hla : errors.Additions.map (addOrDelLine errorText "Addition") = la.map some) :
    errors.String errorText = some (String.join (ld ++ lu ++ la)) := by
  unfold GroupActionErrors.String
  rw [writeDeletions_eq, hld, writeLines_some, Option.some_bind, writeUpdates_eq, hlu,
    writeLines_some, Option.some_bind, writeAdditions_eq, hla, writeLines_some,
    join_append, join_append, String.empty_append]

/-! ## Rendering of an error set: the claim -/

/-- C12 (as the code has it): for an error set whose recorded errors are not
`nil`, `String` returns the concatenation of one entry per recorded error,
`Amount()` entries in all: the deletion errors, then the update errors, then the
addition errors, each category in stored order. Every entry ends in a newline and
contains the Email of its group (of the `After` group for an update) and the
text of its error. When no Email and no error text contains a newline, each
entry is one line and the rendering has `Amount()` lines. The rendering of the
empty error set is the empty string. -/
theorem errors_String_renders {α ε : Type} (errorText : ε → String)
    (errors : GroupActionErrors α ε)
    (hD : ∀ d ∈ errors.Deletions, ∃ e, d.Error = some e)
    (hU : ∀ u ∈ errors.Updates, ∃ e, u.Error = some e)
    (hA : ∀ a ∈ errors.Additions, ∃ e, a.Error = some e) :
    (∃ ld lu la : List String,
      errors.String errorText = some (String.join (ld ++ lu ++ la)) ∧
      errors.Deletions.map (addOrDelLine errorText "Deletion") = ld.map some ∧
      errors.Updates.map (updateLine errorText) = lu.map some ∧
      errors.Additions.map (addOrDelLine errorText "Addition") = la.map some ∧
      (ld ++ lu ++ la).length = errors.Amount ∧
      (∀ line ∈ ld ++ lu ++ la, line.data.getLast? = some '\n') ∧
      ((∀ d ∈ errors.Deletions, newlines d.Action.Email = 0 ∧
          ∀ e, d.Error = some e → newlines (errorText e) = 0) →
        (∀ u ∈ errors.Updates, newlines u.Action.After.Email = 0 ∧
          ∀ e, u.Error = some e → newlines (errorText e) = 0) →
        (∀ a ∈ errors.Additions, newlines a.Action.Email = 0 ∧
          ∀ e, a.Error = some e → newlines (errorText e) = 0) →
        newlines (String.join (ld ++ lu ++ la)) = errors.Amount)) ∧
    (∀ (kind : String) (d : GroupAddOrDelError α ε) (line : String),
      addOrDelLine errorText kind d = some line →
        ∃ e, d.Error = some e ∧ occursIn d.Action.Email line ∧
          occursIn (errorText e) line) ∧
    (∀ (u : GroupUpdateError α ε) (line : String),
      updateLine errorText u = some line →
        ∃ e, u.Error = some e ∧ occursIn u.Action.After.Email line ∧
          occursIn (errorText e) line) ∧
    ({ Updates := [], Additions := [], Deletions := [] } :
      GroupActionErrors α ε).String errorText = some "" := by
  refine ⟨?_, ?_, ?_, rfl⟩
  · obtain ⟨ld, hld⟩ := eq_map_some_of_all_some
      (errors.Deletions.map (addOrDelLine errorText "Deletion")) (by
        intro x hx
        obtain ⟨d, hd, rfl⟩ := List.mem_map.1 hx
        obtain ⟨e, he⟩ := hD d hd
        exact ⟨formatFailure "Deletion" d.Action.Email (errorText e), by
          simp [addOrDelLine, he]⟩)
    obtain ⟨lu, hlu⟩ := eq_map_some_of_all_some
      (errors.Updates.map (updateLine errorText)) (by
        intro x hx
        obtain ⟨u, hu, rfl⟩ := List.mem_map.1 hx
        obtain ⟨e, he⟩ := hU u hu
        exact ⟨formatFailure "Update" u.Action.After.Email (errorText e), by
          simp [updateLine, he]⟩)
    obtain ⟨la, hla⟩ := eq_map_some_of_all_some
      (errors.Additions.map (addOrDelLine errorText "Addition")) (by
        intro x hx
        obtain ⟨a, ha, rfl⟩ := List.mem_map.1 hx
        obtain ⟨e, he⟩ := hA a ha
        exact ⟨formatFailure "Addition" a.Action.Email (errorText e), by
          simp [addOrDelLine, he]⟩)
    have hlen : (ld ++ lu ++ la).length = errors.Amount := by
      have e1 := congrArg List.length hld
      have e2 := congrArg List.length hlu
      have e3 := congrArg List.length hla
      simp only [List.length_map] at e1 e2 e3
      simp only [List.length_append, GroupActionErrors.Amount]
      omega
    refine ⟨ld, lu, la, String_eq_join errorText errors ld lu la hld hlu hla, hld, hlu, hla,
      hlen, ?_, ?_⟩
    · intro line hline
      simp only [List.mem_append] at hline
      rcases hline with (h | h) | h
      · obtain ⟨d, _, hd⟩ := mem_of_map_eq_map_some hld h
        obtain ⟨e, _, rfl⟩ := addOrDelLine_some hd
        exact (formatFailure_content _ _ _).2.2
      · obtain ⟨u, _, hu⟩ := mem_of_map_eq_map_some hlu h
        obtain ⟨e, _, rfl⟩ := updateLine_some hu
        exact (formatFailure_content _ _ _).2.2
      · obtain ⟨a, _, ha⟩ := mem_of_map_eq_map_some hla h
        obtain ⟨e, _, rfl⟩ := addOrDelLine_some ha
        exact (formatFailure_content _ _ _).2.2
    · intro nD nU nA
      rw [newlines_join, hlen]
      intro line hline
      simp only [List.mem_append] at hline
      rcases hline with (h | h) | h
      · obtain ⟨d, hmem, hd⟩ := mem_of_map_eq_map_some hld h
        obtain ⟨e, he, rfl⟩ := addOrDelLine_some hd
        have hk : newlines "Deletion" = 0 := by decide
        rw [newlines_formatFailure, hk, (nD d hmem).1, (nD d hmem).2 e he]
      · obtain ⟨u, hmem, hu⟩ := mem_of_map_eq_map_some hlu h
        obtain ⟨e, he, rfl⟩ := updateLine_some hu
        have hk : newlines "Update" = 0 := by decide
        rw [newlines_formatFailure, hk, (nU u hmem).1, (nU u hmem).2 e he]
      · obtain ⟨a, hmem, ha⟩ := mem_of_map_eq_map_some hla h
        obtain ⟨e, he, rfl⟩ := addOrDelLine_some ha
        have hk : newlines "Addition" = 0 := by decide
        rw [newlines_formatFailure, hk, (nA a hmem).1, (nA a hmem).2 e he]
  · intro kind d line h
    obtain ⟨e, he, rfl⟩ := addOrDelLine_some h
    exact ⟨e, he, (formatFailure_content _ _ _).1, (formatFailure_content _ _ _).2.1⟩
  · intro u line h
    obtain ⟨e, he, rfl⟩ := updateLine_some h
    exact ⟨e, he, (formatFailure_content _ _ _).1, (formatFailure_content _ _ _).2.1⟩

/-- Witness of C12 on the sample error set with one failure in each category. -/
theorem errors_String_renders_witness :
    (∃ ld lu la : List String,
      threeFailures.String id = some (String.join (ld ++ lu ++ la)) ∧
      threeFailures.Deletions.map (addOrDelLine id "Deletion") = ld.map some ∧
      threeFailures.Updates.map (updateLine id) = lu.map some ∧
      threeFailures.Additions.map (addOrDelLine id "Addition") = la.map some ∧
      (ld ++ lu ++ la).length = threeFailures.Amount) ∧
    threeFailures.String id =
      some ("Deletion of group \"c@x\" failed with error gone\n" ++
        "Update of group \"a@x\" failed with error busy\n" ++
        "Addition of group \"b@x\" failed with error denied\n") ∧
    threeFailures.Amount = 3 := by
  obtain ⟨⟨ld, lu, la, h1, h2, h3, h4, h5, _⟩, _⟩ :=
    errors_String_renders id threeFailures (by simp [threeFailures])
      (by simp [threeFailures]) (by simp [threeFailures])
  exact ⟨⟨ld, lu, la, h1, h2, h3, h4, h5⟩, by decide, by decide⟩

/-- C12 fails as stated: the service `quotaService` answers `DeleteGroup` with an
error whose text has two lines; the commit of `deleteC` records that one error
(`Amount() == 1`), and its rendering has two lines, not one. -/
theorem errors_String_two_lines :
    (deleteC.Commit quotaService ()).1 = twoLineFailure ∧
    twoLineFailure.Amount = 1 ∧
    twoLineFailure.String id =
      some "Deletion of group \"c@x\" failed with error quota\nexceeded\n" ∧
    newlines "Deletion of group \"c@x\" failed with error quota\nexceeded\n" = 2 := by
  decide

end Goldapps
